import Mathlib

/-!
Verification of the `ifad` core (gene/annotation classifier, index,
query engine, ingest and export pipeline) against its specification.

The Rust sources are embedded shallowly:
* `Aspect`, `AnnotationStatus`, `GeneRecord`, `AnnotationRecord` mirror
  `ifad-core/src/lib.rs` and `ifad-core/src/ingest.rs`;
* `Annot` mirrors `Annotation` of `ifad-core/src/models.rs`;
* `Index.new` mirrors `ifad-core/src/index.rs` (passes A-D);
* `Segment.query`, `queryAll`, `unionQR`, `intersectQR`, `Query.execute`
  mirror `ifad-core/src/queries.rs`;
* `scanLines` mirrors the `MetadataReader` read loop of
  `ifad-core/src/ingest.rs`;
* `AnnotationRecord.parse_from`, `GafExporter_write_all` mirror the
  record parsing and export of `ingest.rs` / `export.rs`.

Hash maps are embedded as association lists with replace-on-insert
(`HashMap::insert` semantics) and hash sets as `Finset Nat` over the
opaque integer keys (`GeneKey`, `AnnoKey` are vector positions).
-/

inductive Aspect where
  | MolecularFunction
  | BiologicalProcess
  | CellularComponent
deriving DecidableEq, Inhabited

/-- Wire encoding of `Aspect` (serde rename `F` / `P` / `C`). -/
def Aspect.str : Aspect → String
  | .MolecularFunction => "F"
  | .BiologicalProcess => "P"
  | .CellularComponent => "C"

/-- Split a character list on a separator character; always returns one
more piece than there are separators (Rust `str::split` semantics). -/
def splitOnChar (c : Char) : List Char → List (List Char)
  | [] => [[]]
  | x :: xs =>
    match splitOnChar c xs with
    | [] => [[]]
    | f :: rest => if x = c then [] :: f :: rest else (x :: f) :: rest

/-- Wire decoding of `Aspect` (serde rename `F` / `P` / `C`). -/
def Aspect.fromStr (s : String) : Option Aspect :=
  if s = "F" then some .MolecularFunction
  else if s = "P" then some .BiologicalProcess
  else if s = "C" then some .CellularComponent
  else none

inductive AnnotationStatus where
  | KnownExperimental
  | KnownOther
  | Unknown
  | Unannotated
deriving DecidableEq, Inhabited

/-- Raw gene-list row (`ingest.rs`). -/
structure GeneRecord where
  gene_id : String
  gene_product_type : String
deriving DecidableEq, Inhabited

/-- Raw GAF row, seventeen fields in GAF 2.1 order (`ingest.rs`). -/
structure AnnotationRecord where
  db : String
  database_id : String
  db_object_symbol : String
  invert : String
  go_term : String
  reference : String
  evidence_code : String
  additional_evidence : String
  aspect : Aspect
  unique_gene_name : String
  alternative_gene_name : String
  gene_product_type : String
  taxon : String
  date : String
  assigned_by : String
  annotation_extension : String
  gene_product_form_id : String
deriving DecidableEq, Inhabited

/-- `Gene` of `models.rs`: a thin wrapper over a gene record. -/
structure Gene where
  gene_id : String
  gene_product_type : String
deriving DecidableEq, Inhabited

/-- `Gene::from_record` (the `From<GeneRecord>` impl of `models.rs`). -/
def Gene.from_record (record : GeneRecord) : Gene :=
  { gene_id := record.gene_id, gene_product_type := record.gene_product_type }

/-- `Annotation` of `models.rs`: a classified record.  The Rust name ends
in a token this development cannot use as an identifier, hence `Annot`.
The `record` field carries the raw row for export; it is present in the
shipped key-based `Annotation` (the CLI exports `anno.record`), which is
not under `src/`.  Modelled from the spec: the exporter re-serializes
"the same field order as parsing", so the classified value keeps its raw
record. -/
structure Annot where
  db : String
  database_id : String
  db_object_symbol : String
  invert : Bool
  go_term : String
  reference : String
  evidence_code : String
  additional_evidence : String
  aspect : Aspect
  annotation_status : AnnotationStatus
  gene_names : List String
  gene_product_type : String
  taxon : String
  date : String
  assigned_by : String
  annotation_extension : String
  gene_product_form_id : String
  record : AnnotationRecord
deriving DecidableEq, Inhabited

/-- Rust `str::split('|')` modelled at the character level. -/
def splitPipe (s : String) : List String :=
  (splitOnChar '|' s.data).map (fun f => String.mk f)

/-- Rust `str::to_lowercase` modelled at the character level. -/
def lowercase (s : String) : String := String.mk (s.data.map Char.toLower)

/-- `Annotation::from_record` of `models.rs`: derives `gene_names`,
`invert` and the classified `annotation_status` from a raw record and the
experimental-evidence allow-list. -/
def Annot.from_record (record : AnnotationRecord) (experimental_evidence : List String) : Annot :=
  let gene_names := record.unique_gene_name :: splitPipe record.alternative_gene_name
  let annotation_status :=
    if record.evidence_code = "ND" then
      AnnotationStatus.Unknown
    else if record.evidence_code ∈ experimental_evidence then
      AnnotationStatus.KnownExperimental
    else
      AnnotationStatus.KnownOther
  { db := record.db
    database_id := record.database_id
    db_object_symbol := record.db_object_symbol
    invert := lowercase record.invert = "not"
    go_term := record.go_term
    reference := record.reference
    evidence_code := record.evidence_code
    additional_evidence := record.additional_evidence
    aspect := record.aspect
    annotation_status := annotation_status
    gene_names := gene_names
    gene_product_type := record.gene_product_type
    taxon := record.taxon
    date := record.date
    assigned_by := record.assigned_by
    annotation_extension := record.annotation_extension
    gene_product_form_id := record.gene_product_form_id
    record := record }

/-- The default experimental-evidence allow-list (CLI / index tests). -/
def experimentalEvidence : List String :=
  ["EXP", "IDA", "IPI", "IMP", "IGI", "IEP", "HTP", "HDA", "HMP", "HGI", "HEP"]

/-- Pair each element with its position, starting at `n` (the
`iter().enumerate()` of the Rust passes). -/
def withIdx (n : Nat) : List α → List (Nat × α)
  | [] => []
  | x :: xs => (n, x) :: withIdx (n + 1) xs

/-- Opaque index into the gene vector of an `Index`. -/
abbrev GeneKey := Nat

/-- Opaque index into the annotation vector of an `Index`. -/
abbrev AnnoKey := Nat

/-- `AnnoIndex`: gene-id string to `(GeneKey, set of AnnoKey)`, embedded
as an association list with `HashMap` replace-on-insert semantics. -/
abbrev AnnoIndex := List (String × GeneKey × Finset AnnoKey)

/-- `HashMap::get` on the annotation index. -/
def annoIndexGet (ai : AnnoIndex) (id : String) : Option (GeneKey × Finset AnnoKey) :=
  match ai with
  | [] => none
  | e :: rest => if e.1 = id then some e.2 else annoIndexGet rest id

/-- `HashMap::insert` on the annotation index: replaces the entry with
the same key, otherwise appends. -/
def annoIndexInsert (ai : AnnoIndex) (id : String) (v : GeneKey × Finset AnnoKey) : AnnoIndex :=
  match ai with
  | [] => [(id, v)]
  | e :: rest => if e.1 = id then (id, v) :: rest else e :: annoIndexInsert rest id v

/-- Adding one annotation key to the set stored for gene id `id`
(the `gene_annotations.insert(annotation)` step of pass B). -/
def annoIndexAddAnno (ai : AnnoIndex) (id : String) (j : AnnoKey) : AnnoIndex :=
  match ai with
  | [] => []
  | e :: rest =>
    if e.1 = id then (e.1, e.2.1, insert j e.2.2) :: rest
    else e :: annoIndexAddAnno rest id j

/-- `GeneIndex`: `(Aspect, AnnotationStatus)` to set of gene keys,
embedded as a total function (missing buckets are the empty set). -/
abbrev GeneIndex := Aspect → AnnotationStatus → Finset GeneKey

/-- The empty gene index. -/
def emptyGeneIndex : GeneIndex := fun _ _ => ∅

/-- `entry(aspect).entry(status).insert(key)` on a gene index. -/
def giInsert (gi : GeneIndex) (a : Aspect) (s : AnnotationStatus) (k : GeneKey) : GeneIndex :=
  fun a2 s2 => if a2 = a then (if s2 = s then insert k (gi a s) else gi a2 s2) else gi a2 s2

/-- `Annotation::gene_in` of `models.rs`: the first of the annotation's
gene names that is a key of the annotation index. -/
def Annot.gene_in (anno : Annot) (ai : AnnoIndex) : Option String :=
  anno.gene_names.find? (fun name => (annoIndexGet ai name).isSome)

/-- Pass A of `Index::new`: seed the annotation index with an empty
entry for every gene, keyed by gene id; `HashMap::insert` replaces on
duplicate ids. -/
def passA (genes : List Gene) : AnnoIndex :=
  (withIdx 0 genes).foldl (fun ai p => annoIndexInsert ai p.2.gene_id (p.1, ∅)) []

/-- The in-progress state of `Index::new` during pass B: the permanent
gene index, the temporary KnownOther `(aspect, gene)` pairs, and the
annotation index. -/
structure BuildState where
  gene_index : GeneIndex
  known_other : List (Aspect × GeneKey)
  anno_index : AnnoIndex

/-- One iteration of pass B of `Index::new`: resolve the annotation's
gene (skip the annotation when no name matches), record the annotation
key under the resolved gene, and place the gene key either in the
temporary KnownOther index or directly in the permanent index.  The
inner `none` branch is unreachable: `gene_in` only returns names that
are keys of the annotation index (the Rust code `expect`s there). -/
def passBStep (st : BuildState) (j : AnnoKey) (anno : Annot) : BuildState :=
  match anno.gene_in st.anno_index with
  | none => st
  | some gene_id =>
    match annoIndexGet st.anno_index gene_id with
    | none => st
    | some (gkey, _) =>
      let ai := annoIndexAddAnno st.anno_index gene_id j
      if anno.annotation_status = AnnotationStatus.KnownOther then
        { st with anno_index := ai, known_other := st.known_other ++ [(anno.aspect, gkey)] }
      else
        { st with anno_index := ai,
                  gene_index := giInsert st.gene_index anno.aspect anno.annotation_status gkey }

/-- Passes A and B of `Index::new` over the enumerated annotations. -/
def passB (genes : List Gene) (annotations : List Annot) : BuildState :=
  (withIdx 0 annotations).foldl (fun st p => passBStep st p.1 p.2)
    { gene_index := emptyGeneIndex, known_other := [], anno_index := passA genes }

/-- Pass C of `Index::new`: fold the temporary KnownOther pairs into the
permanent index unless the gene already has experimental evidence in
that aspect. -/
def passC (gi : GeneIndex) : List (Aspect × GeneKey) → GeneIndex
  | [] => gi
  | p :: rest =>
    let gi2 :=
      if p.2 ∈ gi p.1 AnnotationStatus.KnownExperimental then gi
      else giInsert gi p.1 AnnotationStatus.KnownOther p.2
    passC gi2 rest

/-- The central `Index` of `index.rs`. -/
structure Index where
  genes : List Gene
  annotations : List Annot
  gene_index : GeneIndex
  anno_index : AnnoIndex

/-- `get_gene`: resolve a gene key against the gene vector. -/
def Index.get_gene (idx : Index) (k : GeneKey) : Option Gene := idx.genes.get? k

/-- `get_annotation`: resolve an annotation key against the vector. -/
def Index.get_annotation (idx : Index) (j : AnnoKey) : Option Annot := idx.annotations.get? j

/-- The aspect iteration order of `Index::index_unannotated`. -/
def aspectsList : List Aspect :=
  [Aspect.CellularComponent, Aspect.MolecularFunction, Aspect.BiologicalProcess]

/-- The set of genes annotated to an aspect: the union of the aspect's
status buckets (the `genes_by_aspect` snapshot of `index_unannotated`). -/
def annotatedIn (gi : GeneIndex) (a : Aspect) : Finset GeneKey :=
  gi a AnnotationStatus.KnownExperimental ∪ gi a AnnotationStatus.KnownOther ∪
    gi a AnnotationStatus.Unknown ∪ gi a AnnotationStatus.Unannotated

/-- One gene of the `index_unannotated` loop: for each aspect, insert the
gene into the Unannotated bucket when the snapshot says it is not
annotated to that aspect. -/
def passDStep (snapshot : Aspect → Finset GeneKey) (gi : GeneIndex) (k : GeneKey) : GeneIndex :=
  aspectsList.foldl
    (fun gi2 a => if k ∈ snapshot a then gi2 else giInsert gi2 a AnnotationStatus.Unannotated k) gi

/-- `Index::index_unannotated`: snapshot the per-aspect annotated sets,
then walk every indexed gene and mark it Unannotated in each aspect the
snapshot does not cover. -/
def indexUnannotated (idx : Index) : Index :=
  let snapshot := fun a => annotatedIn idx.gene_index a
  { idx with gene_index := idx.anno_index.foldl (fun gi e => passDStep snapshot gi e.2.1) idx.gene_index }

/-- `Index::new` of `index.rs`: passes A-D. -/
def Index.new (genes : List Gene) (annotations : List Annot) : Index :=
  let st := passB genes annotations
  let gi := passC st.gene_index st.known_other
  indexUnannotated
    { genes := genes, annotations := annotations, gene_index := gi, anno_index := st.anno_index }

/-- A query result: sets of gene and annotation keys (`queries.rs`). -/
structure QueryResult where
  queried_genes : Finset GeneKey
  queried_annos : Finset AnnoKey
deriving DecidableEq, Inhabited

/-- `QueryResult::empty`. -/
def QueryResult.emptyResult : QueryResult := { queried_genes := ∅, queried_annos := ∅ }

/-- A segment predicate `(aspect, status)` (`queries.rs`). -/
structure Segment where
  aspect : Aspect
  annotation_status : AnnotationStatus
deriving DecidableEq, Inhabited

/-- The status filter of `Segment::query`: the annotation behind key `j`
has the segment's aspect and status. -/
def segMatches (idx : Index) (seg : Segment) (j : AnnoKey) : Bool :=
  match idx.get_annotation j with
  | none => false
  | some anno =>
    decide (anno.aspect = seg.aspect ∧ anno.annotation_status = seg.annotation_status)

/-- `Segment::query` of `queries.rs`: the genes of the
`gene_index[aspect][status]` bucket, and the annotations of those genes
whose aspect and status match the segment. -/
def Segment.query (seg : Segment) (idx : Index) : QueryResult :=
  let queried_genes := idx.gene_index seg.aspect seg.annotation_status
  let queried_annos : Finset AnnoKey :=
    queried_genes.biUnion (fun gk =>
      match idx.get_gene gk with
      | none => ∅
      | some gene =>
        match annoIndexGet idx.anno_index gene.gene_id with
        | none => ∅
        | some e => e.2.filter (fun j => segMatches idx seg j = true))
  { queried_genes := queried_genes, queried_annos := queried_annos }

/-- `query_all` of `queries.rs`: unzip the `(gene, anno)` pairs obtained
by pairing every annotation-index entry's gene with each of its
annotation keys.  Modelled from the spec: set iteration order is
unspecified in Rust; the spec lets `All` be "emitted in index insertion
order", realised here by iterating each entry's key set in ascending
order. -/
def finsetSortAsc (s : Finset Nat) : List Nat :=
  (List.range (s.sup id + 1)).filter (fun j => j ∈ s)

def allPairs (ai : AnnoIndex) : List (GeneKey × AnnoKey) :=
  ai.foldr (fun e acc => ((finsetSortAsc e.2.2).map (fun j => (e.2.1, j))) ++ acc) []

def queryAll (idx : Index) : QueryResult :=
  { queried_genes := ((allPairs idx.anno_index).map Prod.fst).toFinset,
    queried_annos := ((allPairs idx.anno_index).map Prod.snd).toFinset }

/-- `union` of `queries.rs`: componentwise set union. -/
def unionQR (first second : QueryResult) : QueryResult :=
  { queried_genes := first.queried_genes ∪ second.queried_genes,
    queried_annos := first.queried_annos ∪ second.queried_annos }

/-- The "resolved gene" of an annotation: the gene key stored under the
first of its names present in the annotation index.  Modelled from the
spec: the key-based `gene_in` used by `intersect` (not under `src/`)
resolves a name through `anno_index` and yields the stored `GeneKey`. -/
def Index.resolveGene (idx : Index) (anno : Annot) : Option GeneKey :=
  match anno.gene_in idx.anno_index with
  | none => none
  | some name => (annoIndexGet idx.anno_index name).map Prod.fst

/-- The annotation filter of `intersect`: keep an annotation key when it
resolves to a gene lying in the given gene set. -/
def keepAnno (idx : Index) (genes : Finset GeneKey) (j : AnnoKey) : Bool :=
  match idx.get_annotation j with
  | none => false
  | some anno =>
    match idx.resolveGene anno with
    | none => false
    | some k => decide (k ∈ genes)

/-- `intersect` of `queries.rs`: intersect the gene sets, union the
annotation sets, and keep only annotations resolving into the
intersected gene set. -/
def intersectQR (idx : Index) (first second : QueryResult) : QueryResult :=
  let queried_genes := first.queried_genes ∩ second.queried_genes
  let union_annos := first.queried_annos ∪ second.queried_annos
  { queried_genes := queried_genes,
    queried_annos := union_annos.filter (fun j => keepAnno idx queried_genes j = true) }

/-- `Itertools::fold1`: fold a list from its first element. -/
def fold1 (f : α → α → α) : List α → Option α
  | [] => none
  | x :: xs => some (xs.foldl f x)

/-- The query shapes of `queries.rs`. -/
inductive Query where
  | All : Query
  | Union : List Segment → Query
  | Intersection : List Segment → Query

/-- `Query::execute` of `queries.rs`. -/
def Query.execute (q : Query) (idx : Index) : QueryResult :=
  match q with
  | .All => queryAll idx
  | .Union segments =>
    (fold1 (fun a b => unionQR a b) (segments.map (fun s => s.query idx))).getD
      QueryResult.emptyResult
  | .Intersection segments =>
    (fold1 (fun a b => intersectQR idx a b) (segments.map (fun s => s.query idx))).getD
      QueryResult.emptyResult

/-- Split a character list into lines, each line keeping its terminating
newline (the last line may be unterminated), mirroring `read_line`. -/
def linesInc : List Char → List (List Char)
  | [] => []
  | x :: xs =>
    if x = '\n' then [x] :: linesInc xs
    else
      match linesInc xs with
      | [] => [[x]]
      | l :: ls => (x :: l) :: ls

/-- Rust `char::is_whitespace`: the Unicode `White_Space` property
(U+0009..U+000D, SPACE, NEL, NBSP, OGHAM SPACE MARK, the U+2000..U+200A
spaces, LINE/PARAGRAPH SEPARATOR, NARROW NBSP, MMSP, IDEOGRAPHIC
SPACE) — wider than Lean's `Char.isWhitespace`. -/
def rustIsWhitespace (c : Char) : Bool :=
  c.toNat = 0x09 || c.toNat = 0x0A || c.toNat = 0x0B || c.toNat = 0x0C ||
  c.toNat = 0x0D || c.toNat = 0x20 || c.toNat = 0x85 || c.toNat = 0xA0 ||
  c.toNat = 0x1680 || (0x2000 ≤ c.toNat && c.toNat ≤ 0x200A) ||
  c.toNat = 0x2028 || c.toNat = 0x2029 || c.toNat = 0x202F ||
  c.toNat = 0x205F || c.toNat = 0x3000

/-- `line.trim_start().is_empty()`: the line is all whitespace. -/
def isBlankLine (l : List Char) : Bool := l.all (fun c => rustIsWhitespace c)

/-- `line.trim_start().starts_with('!')`. -/
def isBangLine (l : List Char) : Bool :=
  (l.dropWhile (fun c => rustIsWhitespace c)).head? = some '!'

/-- The `SCANNING` loop of `MetadataReader::read` (`ingest.rs`): consume
lines; a blank line contributes a single `'\n'` to the metadata, a
`!`-line is appended raw; the first other line is captured raw as the
header and the remaining bytes form the body.  Returns `none` when the
input ends before a header line is found (`metadata()` / `header()`
stay `None`). -/
def scanLines : List (List Char) → List Char → Option (List Char × List Char × List Char)
  | [], _ => none
  | l :: rest, acc =>
    if isBlankLine l then scanLines rest (acc ++ ['\n'])
    else if isBangLine l then scanLines rest (acc ++ l)
    else some (acc, l, rest.flatten)

/-- Driving `MetadataReader` over a whole input: the captured metadata,
the captured header, and the forwarded body. -/
def metadataSplit (input : List Char) : Option (List Char × List Char × List Char) :=
  scanLines (linesInc input) []

/-- Interleave a separator character between pieces (inverse of
`splitOnChar`). -/
def intercalateChar (c : Char) : List (List Char) → List Char
  | [] => []
  | [f] => f
  | f :: rest => f ++ c :: intercalateChar c rest

/-- Drop the terminating newline of a CSV record line, if present. -/
def stripNl (l : List Char) : List Char :=
  if l.getLast? = some '\n' then l.dropLast else l

/-- Decode one body line as a 17-field tab-separated `AnnotationRecord`.
Modelled from the spec: the `csv` crate decode tolerates extra columns
(`flexible`) and rejects short rows; the `aspect` column decodes via its
wire letter. -/
def parseAnnotationRow (l : List Char) : Option AnnotationRecord :=
  match splitOnChar '\t' (stripNl l) with
  | f0 :: f1 :: f2 :: f3 :: f4 :: f5 :: f6 :: f7 :: f8 :: f9 :: f10 :: f11 :: f12 :: f13 ::
      f14 :: f15 :: f16 :: _ =>
    match Aspect.fromStr (String.mk f8) with
    | none => none
    | some aspect =>
      some { db := String.mk f0, database_id := String.mk f1, db_object_symbol := String.mk f2
             invert := String.mk f3, go_term := String.mk f4, reference := String.mk f5
             evidence_code := String.mk f6, additional_evidence := String.mk f7
             aspect := aspect, unique_gene_name := String.mk f9
             alternative_gene_name := String.mk f10, gene_product_type := String.mk f11
             taxon := String.mk f12, date := String.mk f13, assigned_by := String.mk f14
             annotation_extension := String.mk f15, gene_product_form_id := String.mk f16 }
  | _ => none

/-- Decode one body line as a 2-field tab-separated `GeneRecord`.
Modelled from the spec: gene rows require 2 fields. -/
def parseGeneRow (l : List Char) : Option GeneRecord :=
  match splitOnChar '\t' (stripNl l) with
  | f0 :: f1 :: _ =>
    some { gene_id := String.mk f0, gene_product_type := String.mk f1 }
  | _ => none

/-- The non-empty record lines of a body (the `csv` crate ignores empty
lines; modelled from the spec's row contract). -/
def bodyRows (body : List Char) : List (List Char) :=
  (linesInc body).filter (fun l => stripNl l ≠ [])

/-- `AnnotationRecord::parse_from` of `ingest.rs`.  The Rust loop
`unwrap`s both the raw-record read and the per-row decode, so one
undecodable row aborts the whole parse by panicking; `none` embeds that
panic.  A successful parse returns the records in file order. -/
def AnnotationRecord.parse_from (body : List Char) : Option (List AnnotationRecord) :=
  (bodyRows body).mapM parseAnnotationRow

/-- `GeneRecord::parse_from` of `ingest.rs`; `none` embeds the panic on
an undecodable row, as for annotations. -/
def GeneRecord.parse_from (body : List Char) : Option (List GeneRecord) :=
  (bodyRows body).mapM parseGeneRow

/-- Tab-serialize one record in parse field order, with the record
terminator, as the csv writer of `GafExporter` emits it. -/
def serializeAnnotationRow (r : AnnotationRecord) : List Char :=
  intercalateChar '\t'
    [r.db.data, r.database_id.data, r.db_object_symbol.data, r.invert.data, r.go_term.data,
     r.reference.data, r.evidence_code.data, r.additional_evidence.data, (Aspect.str r.aspect).data,
     r.unique_gene_name.data, r.alternative_gene_name.data, r.gene_product_type.data,
     r.taxon.data, r.date.data, r.assigned_by.data, r.annotation_extension.data,
     r.gene_product_form_id.data] ++ ['\n']

/-- `GafExporter::write_all` of `export.rs`: metadata, then header, then
each record tab-serialized in parse field order. -/
def GafExporter_write_all (metadata header : List Char) (records : List AnnotationRecord) :
    List Char :=
  metadata ++ header ++ (records.map serializeAnnotationRow).flatten

/-- The full annotation pipeline of the CLI: `MetadataReader`, record
parsing, classification with the default allow-list, `Index::new`,
`Query::All`, then GAF export of the queried annotations' records (in
index insertion order, realised as ascending key order).  `none` embeds
a parse panic or an invalid key during result hydration. -/
def pipelineAll (genes : List Gene) (input : List Char) : Option (List Char) :=
  match metadataSplit input with
  | none => none
  | some (metadata, header, body) =>
    match AnnotationRecord.parse_from body with
    | none => none
    | some records =>
      let annots := records.map (fun r => Annot.from_record r experimentalEvidence)
      let idx := Index.new genes annots
      let result := queryAll idx
      match ((finsetSortAsc result.queried_annos).mapM (fun j => idx.get_annotation j)) with
      | none => none
      | some annos => some (GafExporter_write_all metadata header (annos.map (fun a => a.record)))

/-- The position of the last gene in the list carrying the given id
(used to state the duplicate-gene behaviour of pass A). -/
def lastOccurrence (genes : List Gene) (id : String) : Option Nat :=
  (withIdx 0 genes).foldl (fun acc p => if p.2.gene_id = id then some p.1 else acc) none

/-- The set of gene keys having an annotation-index entry. -/
def indexedKeys (idx : Index) : Finset GeneKey :=
  (idx.anno_index.map (fun e => e.2.1)).toFinset

/-- Assemble an `AnnotationRecord` from split fields (used to state the
row round trip). -/
def mkAnnoRecord (f0 f1 f2 f3 f4 f5 f6 f7 : List Char) (asp : Aspect)
    (f9 f10 f11 f12 f13 f14 f15 f16 : List Char) : AnnotationRecord :=
  { db := String.mk f0, database_id := String.mk f1, db_object_symbol := String.mk f2
    invert := String.mk f3, go_term := String.mk f4, reference := String.mk f5
    evidence_code := String.mk f6, additional_evidence := String.mk f7
    aspect := asp, unique_gene_name := String.mk f9
    alternative_gene_name := String.mk f10, gene_product_type := String.mk f11
    taxon := String.mk f12, date := String.mk f13, assigned_by := String.mk f14
    annotation_extension := String.mk f15, gene_product_form_id := String.mk f16 }

/-- A body line that round-trips: newline-terminated, exactly 17
tab-separated fields, with a decodable aspect letter. -/
def rowOk (l : List Char) : Bool :=
  match splitOnChar '\t' (stripNl l) with
  | [_, _, _, _, _, _, _, _, f8, _, _, _, _, _, _, _, _] =>
    (Aspect.fromStr (String.mk f8)).isSome && decide (l.getLast? = some '\n')
  | _ => false

/-- A body line whose parsed record, once classified with the default
allow-list, resolves to a gene of the given gene list. -/
def rowResolves (genes : List Gene) (l : List Char) : Bool :=
  match parseAnnotationRow l with
  | none => false
  | some r => ((Annot.from_record r experimentalEvidence).gene_in (passA genes)).isSome

/-! ### Concrete inputs used by counterexamples and witnesses -/

/-- A well-formed 17-field GAF row naming gene `G`. -/
def c2GoodRow : List Char := "a\tb\tc\t\te\tf\tEXP\th\tC\tG\tG\tp\tt\td\tx\ty\tz\n".data

/-- A body whose first row is undecodable (one field) and whose second
row is well-formed. -/
def c2BadAnnoBody : List Char := "x\n".data ++ c2GoodRow

/-- A single gene named `G`. -/
def cGeneG : Gene := { gene_id := "G", gene_product_type := "p" }

/-- A classified annotation with a chosen status, annotating gene `G`
in the CellularComponent aspect (used to probe `Index::new` with
adversarial statuses). -/
def cAnnotG (st : AnnotationStatus) : Annot :=
  { db := "d", database_id := "i", db_object_symbol := "s", invert := false, go_term := "g",
    reference := "r", evidence_code := "e", additional_evidence := "",
    aspect := Aspect.CellularComponent, annotation_status := st, gene_names := ["G"],
    gene_product_type := "p", taxon := "t", date := "dt", assigned_by := "b",
    annotation_extension := "", gene_product_form_id := "f", record := default }

/-- A GAF input whose one body row parses but names only the unknown
gene `X`. -/
def c1BadInput : List Char :=
  ("!m\nh\n" ++ "a\tb\tc\t\te\tf\tEXP\th\tC\tX\tX\tp\tt\td\tx\ty\tz\n").data

/-- A GAF input whose one body row parses and resolves to gene `G`. -/
def c1GoodInput : List Char := "!m\nh\n".data ++ c2GoodRow

/-! ### Helper lemmas: association list and gene-index primitives -/

theorem isSome_map_fst {x : Option (α × β)} : (x.map Prod.fst).isSome = x.isSome := by
  cases x <;> rfl

theorem annoIndexGet_insert (ai : AnnoIndex) (id id2 : String) (v : GeneKey × Finset AnnoKey) :
    annoIndexGet (annoIndexInsert ai id v) id2 =
      if id = id2 then some v else annoIndexGet ai id2 := by
  induction ai with
  | nil => simp [annoIndexInsert, annoIndexGet]
  | cons e rest ih =>
    by_cases h : e.1 = id
    · subst h
      by_cases h2 : e.1 = id2 <;> simp [annoIndexInsert, annoIndexGet, h2]
    · by_cases h2 : e.1 = id2
      · subst h2
        have : ¬ id = e.1 := fun hh => h hh.symm
        simp [annoIndexInsert, annoIndexGet, h, this]
      · simp [annoIndexInsert, annoIndexGet, h, h2, ih]

theorem annoIndexGet_addAnno_fst (ai : AnnoIndex) (id id2 : String) (j : AnnoKey) :
    (annoIndexGet (annoIndexAddAnno ai id j) id2).map Prod.fst =
      (annoIndexGet ai id2).map Prod.fst := by
  induction ai with
  | nil => simp [annoIndexAddAnno, annoIndexGet]
  | cons e rest ih =>
    by_cases h : e.1 = id
    · subst h
      by_cases h2 : e.1 = id2 <;> simp [annoIndexAddAnno, annoIndexGet, h2]
    · by_cases h2 : e.1 = id2
      · subst h2
        have hne : ¬ id = e.1 := fun hh => h hh.symm
        simp [annoIndexAddAnno, annoIndexGet, h, hne]
      · simp [annoIndexAddAnno, annoIndexGet, h, h2, ih]

theorem annoIndexGet_addAnno_isSome (ai : AnnoIndex) (id id2 : String) (j : AnnoKey) :
    (annoIndexGet (annoIndexAddAnno ai id j) id2).isSome = (annoIndexGet ai id2).isSome := by
  rw [← isSome_map_fst (x := annoIndexGet (annoIndexAddAnno ai id j) id2),
    ← isSome_map_fst (x := annoIndexGet ai id2), annoIndexGet_addAnno_fst]

theorem gene_in_congr (anno : Annot) (ai ai2 : AnnoIndex)
    (h : ∀ name, (annoIndexGet ai name).isSome = (annoIndexGet ai2 name).isSome) :
    anno.gene_in ai = anno.gene_in ai2 := by
  unfold Annot.gene_in
  induction anno.gene_names with
  | nil => rfl
  | cons n rest ih => simp only [List.find?_cons, h n]; rw [ih]

theorem mem_giInsert (gi : GeneIndex) (a : Aspect) (s : AnnotationStatus) (k : GeneKey)
    (a2 : Aspect) (s2 : AnnotationStatus) (k2 : GeneKey) :
    k2 ∈ giInsert gi a s k a2 s2 ↔ (a2 = a ∧ s2 = s ∧ k2 = k) ∨ k2 ∈ gi a2 s2 := by
  unfold giInsert
  by_cases h1 : a2 = a
  · by_cases h2 : s2 = s
    · subst h1; subst h2; simp
    · simp [h1, h2]
  · simp [h1]

theorem giInsert_bucket_ne (gi : GeneIndex) (a : Aspect) (s : AnnotationStatus) (k : GeneKey)
    (a2 : Aspect) (s2 : AnnotationStatus) (h : a2 ≠ a ∨ s2 ≠ s) :
    giInsert gi a s k a2 s2 = gi a2 s2 := by
  unfold giInsert
  rcases h with h | h
  · simp [h]
  · by_cases h1 : a2 = a <;> simp [h1, h]

/-! ### C5: the classifier -/

theorem from_record_status (record : AnnotationRecord) (allow : List String) :
    ( Annot.from_record record allow).annotation_status =
      (if record.evidence_code = "ND" then AnnotationStatus.Unknown
       else if record.evidence_code ∈ allow then AnnotationStatus.KnownExperimental
       else AnnotationStatus.KnownOther) := rfl

theorem from_record_status_ne_unannot (record : AnnotationRecord) (allow : List String) :
    ( Annot.from_record record allow).annotation_status ≠ AnnotationStatus.Unannotated := by
  rw [from_record_status]
  split_ifs <;> simp

/-- C5: the classifier assigns `Unknown` when the evidence code is `ND`,
else `KnownExperimental` when the code is in the allow-list, else
`KnownOther`; it never assigns any other status (in particular never
`Unannotated`). -/
theorem c5_classifier (record : AnnotationRecord) (allow : List String) :
    ( Annot.from_record record allow).annotation_status =
      (if record.evidence_code = "ND" then AnnotationStatus.Unknown
       else if record.evidence_code ∈ allow then AnnotationStatus.KnownExperimental
       else AnnotationStatus.KnownOther) ∧
    ( Annot.from_record record allow).annotation_status ≠ AnnotationStatus.Unannotated :=
  ⟨from_record_status record allow, from_record_status_ne_unannot record allow⟩

/-! ### C2: undecodable rows abort the parse -/


/-- C2: an undecodable row does not get skipped.  The Rust
`parse_from` loops `unwrap` every row decode, so the first undecodable
row panics (embedded as `none`) and no records at all are returned, even
for the well-formed rows — for both the annotation parser and the gene
parser; a well-formed body parses fine. -/
theorem c2_parse_panics :
    AnnotationRecord.parse_from c2BadAnnoBody = none ∧
    GeneRecord.parse_from ("x\n".data ++ "y\tz\n".data) = none ∧
    (AnnotationRecord.parse_from c2GoodRow).isSome = true ∧
    (GeneRecord.parse_from "y\tz\n".data).isSome = true := by
  refine ⟨?_, ?_, ?_, ?_⟩ <;> decide

/-! ### C6: duplicate gene ids -/

theorem foldA_get (l : List (Nat × Gene)) (ai : AnnoIndex) (id : String) :
    annoIndexGet (l.foldl (fun ai2 p => annoIndexInsert ai2 p.2.gene_id (p.1, ∅)) ai) id =
      l.foldl (fun acc p => if p.2.gene_id = id then some (p.1, (∅ : Finset AnnoKey)) else acc)
        (annoIndexGet ai id) := by
  induction l generalizing ai with
  | nil => rfl
  | cons p rest ih =>
    simp only [List.foldl_cons]
    rw [ih, annoIndexGet_insert]

theorem foldOpt_map_fst (l : List (Nat × Gene)) (a0 : Option (GeneKey × Finset AnnoKey))
    (id : String) :
    (l.foldl (fun acc p => if p.2.gene_id = id then some (p.1, (∅ : Finset AnnoKey)) else acc)
        a0).map Prod.fst =
      l.foldl (fun acc p => if p.2.gene_id = id then some p.1 else acc) (a0.map Prod.fst) := by
  induction l generalizing a0 with
  | nil => rfl
  | cons p rest ih =>
    simp only [List.foldl_cons]
    rw [ih]
    congr 1
    by_cases h : p.2.gene_id = id <;> simp [h]

theorem passBStep_get_fst (st : BuildState) (j : AnnoKey) (x : Annot) (id : String) :
    (annoIndexGet (passBStep st j x).anno_index id).map Prod.fst =
      (annoIndexGet st.anno_index id).map Prod.fst := by
  cases hg : x.gene_in st.anno_index with
  | none => simp [passBStep, hg]
  | some gid =>
    cases hget : annoIndexGet st.anno_index gid with
    | none => simp [passBStep, hg, hget]
    | some v =>
      by_cases hst : x.annotation_status = AnnotationStatus.KnownOther <;>
        simp [passBStep, hg, hget, hst, annoIndexGet_addAnno_fst]

theorem passBFold_get_fst (l : List (Nat × Annot)) (st : BuildState) (id : String) :
    (annoIndexGet ((l.foldl (fun st2 p => passBStep st2 p.1 p.2) st)).anno_index id).map
        Prod.fst =
      (annoIndexGet st.anno_index id).map Prod.fst := by
  induction l generalizing st with
  | nil => rfl
  | cons p rest ih =>
    simp only [List.foldl_cons]
    rw [ih, passBStep_get_fst]

theorem index_new_anno_index (genes : List Gene) (annots : List Annot) :
    (Index.new genes annots).anno_index = (passB genes annots).anno_index := rfl

/-- C6 counterexample: with two genes both named `G`, the annotation
index maps `G` to the key of the SECOND gene (key `1`), not the first
(key `0`): `HashMap::insert` in pass A replaces on duplicate ids, so the
last occurrence wins, contradicting the claim that the earliest gene is
kept as canonical. -/
theorem c6_counterexample :
    (annoIndexGet (Index.new [{ gene_id := "G", gene_product_type := "a" },
          { gene_id := "G", gene_product_type := "b" }] []).anno_index "G").map Prod.fst =
        some 1 ∧
      (annoIndexGet (Index.new [{ gene_id := "G", gene_product_type := "a" },
          { gene_id := "G", gene_product_type := "b" }] []).anno_index "G").map Prod.fst ≠
        some 0 := by
  refine ⟨?_, ?_⟩ <;> decide

/-- C6 (amended): on duplicate gene ids the LAST occurrence wins:
`anno_index[gene_id]` holds the key of the latest gene in input order
with that id, and earlier duplicates are not indexed. -/
theorem c6_last_wins (genes : List Gene) (annots : List Annot) (id : String) :
    (annoIndexGet (Index.new genes annots).anno_index id).map Prod.fst =
      lastOccurrence genes id := by
  rw [index_new_anno_index]
  unfold passB
  rw [passBFold_get_fst]
  show (annoIndexGet (passA genes) id).map Prod.fst = _
  unfold passA lastOccurrence
  rw [foldA_get, foldOpt_map_fst]
  rfl

/-! ### C7: the All query -/

theorem finsetSortAsc_mem (s : Finset Nat) (j : Nat) : j ∈ finsetSortAsc s ↔ j ∈ s := by
  unfold finsetSortAsc
  simp only [List.mem_filter, List.mem_range, decide_eq_true_eq]
  exact ⟨fun h => h.2, fun h => ⟨Nat.lt_succ_of_le (Finset.le_sup (f := id) h), h⟩⟩

theorem allPairs_cons (e : String × GeneKey × Finset AnnoKey) (ai : AnnoIndex) :
    allPairs (e :: ai) =
      ((finsetSortAsc e.2.2).map (fun j => (e.2.1, j))) ++ allPairs ai := rfl

theorem mem_allPairs (ai : AnnoIndex) (k : GeneKey) (j : AnnoKey) :
    (k, j) ∈ allPairs ai ↔ ∃ e ∈ ai, e.2.1 = k ∧ j ∈ e.2.2 := by
  induction ai with
  | nil => simp [allPairs]
  | cons e rest ih =>
    rw [allPairs_cons]
    simp only [List.mem_append, List.mem_map, finsetSortAsc_mem, ih, List.mem_cons,
      Prod.mk.injEq]
    constructor
    · rintro (⟨j2, hj2, rfl, rfl⟩ | ⟨e2, he2, hk, hj⟩)
      · exact ⟨e, Or.inl rfl, rfl, hj2⟩
      · exact ⟨e2, Or.inr he2, hk, hj⟩
    · rintro ⟨e2, (rfl | he2), hk, hj⟩
      · exact Or.inl ⟨j, hj, hk, rfl⟩
      · exact Or.inr ⟨e2, he2, hk, hj⟩

theorem mem_queryAll_genes (idx : Index) (k : GeneKey) :
    k ∈ (queryAll idx).queried_genes ↔
      ∃ e ∈ idx.anno_index, e.2.1 = k ∧ e.2.2.Nonempty := by
  show k ∈ ((allPairs idx.anno_index).map Prod.fst).toFinset ↔ _
  rw [List.mem_toFinset, List.mem_map]
  constructor
  · rintro ⟨⟨k2, j⟩, hp, rfl⟩
    obtain ⟨e, he, hk, hj⟩ := (mem_allPairs idx.anno_index k2 j).1 hp
    exact ⟨e, he, hk, ⟨j, hj⟩⟩
  · rintro ⟨e, he, hk, j, hj⟩
    exact ⟨(k, j), (mem_allPairs idx.anno_index k j).2 ⟨e, he, hk, hj⟩, rfl⟩

theorem mem_queryAll_annos (idx : Index) (j : AnnoKey) :
    j ∈ (queryAll idx).queried_annos ↔ ∃ e ∈ idx.anno_index, j ∈ e.2.2 := by
  show j ∈ ((allPairs idx.anno_index).map Prod.snd).toFinset ↔ _
  rw [List.mem_toFinset, List.mem_map]
  constructor
  · rintro ⟨⟨k, j2⟩, hp, rfl⟩
    obtain ⟨e, he, _, hj⟩ := (mem_allPairs idx.anno_index k j2).1 hp
    exact ⟨e, he, hj⟩
  · rintro ⟨e, he, hj⟩
    exact ⟨(e.2.1, j), (mem_allPairs idx.anno_index e.2.1 j).2 ⟨e, he, rfl, hj⟩, rfl⟩

/-- C7 counterexample: a gene with an `anno_index` entry but no
annotations is NOT in `query_all`'s `queried_genes` — the unzip over
`(gene, anno)` pairs never visits a gene whose annotation set is empty,
contradicting the claim that every gene with an entry is returned. -/
theorem c7_counterexample :
    (annoIndexGet (Index.new [{ gene_id := "G", gene_product_type := "p" }] []).anno_index
        "G").isSome = true ∧
      (0 : Nat) ∉
        (queryAll (Index.new [{ gene_id := "G", gene_product_type := "p" }] [])).queried_genes := by
  refine ⟨by decide, by decide⟩

/-- C7 (amended): `query_all` returns as `queried_genes` exactly the
genes whose `anno_index` annotation set is non-empty (genes with an
entry but no annotations are omitted), and as `queried_annos` the union
of all annotation sets across `anno_index`. -/
theorem c7_query_all_amended (genes : List Gene) (annots : List Annot) :
    (∀ k, k ∈ (queryAll (Index.new genes annots)).queried_genes ↔
      ∃ e ∈ (Index.new genes annots).anno_index, e.2.1 = k ∧ e.2.2 ≠ ∅) ∧
    (∀ j, j ∈ (queryAll (Index.new genes annots)).queried_annos ↔
      ∃ e ∈ (Index.new genes annots).anno_index, j ∈ e.2.2) := by
  constructor
  · intro k
    rw [mem_queryAll_genes]
    simp_rw [Finset.nonempty_iff_ne_empty]
  · intro j
    exact mem_queryAll_annos _ j

/-! ### C3 and C4: gene-index bucket invariants -/

theorem passBStep_bucket_other (st : BuildState) (j : AnnoKey) (x : Annot) (a : Aspect) :
    (passBStep st j x).gene_index a AnnotationStatus.KnownOther =
      st.gene_index a AnnotationStatus.KnownOther := by
  cases hg : x.gene_in st.anno_index with
  | none => simp [passBStep, hg]
  | some gid =>
    cases hget : annoIndexGet st.anno_index gid with
    | none => simp [passBStep, hg, hget]
    | some v =>
      by_cases hst : x.annotation_status = AnnotationStatus.KnownOther
      · simp [passBStep, hg, hget, hst]
      · simp only [passBStep, hg, hget, hst, if_false]
        exact giInsert_bucket_ne _ _ _ _ _ _ (Or.inr fun hh => hst hh.symm)

theorem passBFold_bucket_other (l : List (Nat × Annot)) (st : BuildState) (a : Aspect) :
    ((l.foldl (fun st2 p => passBStep st2 p.1 p.2) st)).gene_index a
        AnnotationStatus.KnownOther =
      st.gene_index a AnnotationStatus.KnownOther := by
  induction l generalizing st with
  | nil => rfl
  | cons p rest ih =>
    simp only [List.foldl_cons]
    rw [ih, passBStep_bucket_other]

theorem passBStep_bucket_unannot (st : BuildState) (j : AnnoKey) (x : Annot) (a : Aspect)
    (hx : x.annotation_status ≠ AnnotationStatus.Unannotated) :
    (passBStep st j x).gene_index a AnnotationStatus.Unannotated =
      st.gene_index a AnnotationStatus.Unannotated := by
  cases hg : x.gene_in st.anno_index with
  | none => simp [passBStep, hg]
  | some gid =>
    cases hget : annoIndexGet st.anno_index gid with
    | none => simp [passBStep, hg, hget]
    | some v =>
      by_cases hst : x.annotation_status = AnnotationStatus.KnownOther
      · simp [passBStep, hg, hget, hst]
      · simp only [passBStep, hg, hget, hst, if_false]
        exact giInsert_bucket_ne _ _ _ _ _ _ (Or.inr fun hh => hx hh.symm)

theorem passBFold_bucket_unannot (l : List (Nat × Annot)) (st : BuildState) (a : Aspect)
    (hl : ∀ p ∈ l, (Prod.snd p).annotation_status ≠ AnnotationStatus.Unannotated) :
    ((l.foldl (fun st2 p => passBStep st2 p.1 p.2) st)).gene_index a
        AnnotationStatus.Unannotated =
      st.gene_index a AnnotationStatus.Unannotated := by
  induction l generalizing st with
  | nil => rfl
  | cons p rest ih =>
    simp only [List.foldl_cons]
    rw [ih _ (fun q hq => hl q (List.mem_cons_of_mem p hq)),
      passBStep_bucket_unannot _ _ _ _ (hl p (List.mem_cons_self p rest))]

theorem passC_bucket_ne (l : List (Aspect × GeneKey)) (gi : GeneIndex) (a : Aspect)
    (s : AnnotationStatus) (hs : s ≠ AnnotationStatus.KnownOther) :
    passC gi l a s = gi a s := by
  induction l generalizing gi with
  | nil => rfl
  | cons p rest ih =>
    show passC (if _ then gi else _) rest a s = gi a s
    by_cases hmem : p.2 ∈ gi p.1 AnnotationStatus.KnownExperimental
    · simp only [hmem, if_true]
      exact ih gi
    · simp only [hmem, if_false]
      rw [ih, giInsert_bucket_ne _ _ _ _ _ _ (Or.inr hs)]

theorem passC_other_mem (l : List (Aspect × GeneKey)) (gi : GeneIndex) (a : Aspect)
    (k : GeneKey) (h : k ∈ passC gi l a AnnotationStatus.KnownOther) :
    k ∈ gi a AnnotationStatus.KnownOther ∨ k ∉ gi a AnnotationStatus.KnownExperimental := by
  induction l generalizing gi with
  | nil => exact Or.inl h
  | cons p rest ih =>
    rw [show passC gi (p :: rest) =
      passC (if p.2 ∈ gi p.1 AnnotationStatus.KnownExperimental then gi
        else giInsert gi p.1 AnnotationStatus.KnownOther p.2) rest from rfl] at h
    by_cases hmem : p.2 ∈ gi p.1 AnnotationStatus.KnownExperimental
    · rw [if_pos hmem] at h
      exact ih gi h
    · rw [if_neg hmem] at h
      rcases ih _ h with h2 | h2
      · rcases (mem_giInsert _ _ _ _ _ _ _).1 h2 with ⟨ha, _, hk⟩ | h3
        · subst ha; subst hk; exact Or.inr hmem
        · exact Or.inl h3
      · rw [giInsert_bucket_ne _ _ _ _ _ _
          (Or.inr (by intro hh; cases hh))] at h2
        exact Or.inr h2

theorem foldD_bucket_ne (al : List Aspect) (snap : Aspect → Finset GeneKey) (gi : GeneIndex)
    (k : GeneKey) (a : Aspect) (s : AnnotationStatus) (hs : s ≠ AnnotationStatus.Unannotated) :
    (al.foldl (fun gi2 a2 => if k ∈ snap a2 then gi2
        else giInsert gi2 a2 AnnotationStatus.Unannotated k) gi) a s = gi a s := by
  induction al generalizing gi with
  | nil => rfl
  | cons a0 rest ih =>
    simp only [List.foldl_cons]
    rw [ih]
    by_cases hc : k ∈ snap a0
    · rw [if_pos hc]
    · rw [if_neg hc, giInsert_bucket_ne _ _ _ _ _ _ (Or.inr hs)]

theorem foldD_mem_unannot (al : List Aspect) (snap : Aspect → Finset GeneKey) (gi : GeneIndex)
    (k : GeneKey) (a : Aspect) (k2 : GeneKey) :
    k2 ∈ (al.foldl (fun gi2 a2 => if k ∈ snap a2 then gi2
        else giInsert gi2 a2 AnnotationStatus.Unannotated k) gi) a
        AnnotationStatus.Unannotated ↔
      k2 ∈ gi a AnnotationStatus.Unannotated ∨ (a ∈ al ∧ k2 = k ∧ k ∉ snap a) := by
  induction al generalizing gi with
  | nil => simp
  | cons a0 rest ih =>
    simp only [List.foldl_cons, ih, List.mem_cons]
    by_cases hc : k ∈ snap a0
    · rw [if_pos hc]
      constructor
      · rintro (h | ⟨hal, hk, hsnap⟩)
        · exact Or.inl h
        · exact Or.inr ⟨Or.inr hal, hk, hsnap⟩
      · rintro (h | ⟨(rfl | hal), hk, hsnap⟩)
        · exact Or.inl h
        · exact absurd hc hsnap
        · exact Or.inr ⟨hal, hk, hsnap⟩
    · rw [if_neg hc]
      rw [mem_giInsert]
      constructor
      · rintro ((⟨rfl, _, rfl⟩ | h) | ⟨hal, hk, hsnap⟩)
        · exact Or.inr ⟨Or.inl rfl, rfl, hc⟩
        · exact Or.inl h
        · exact Or.inr ⟨Or.inr hal, hk, hsnap⟩
      · rintro (h | ⟨(rfl | hal), hk, hsnap⟩)
        · exact Or.inl (Or.inr h)
        · exact Or.inl (Or.inl ⟨rfl, rfl, hk⟩)
        · exact Or.inr ⟨hal, hk, hsnap⟩

theorem mem_aspectsList (a : Aspect) : a ∈ aspectsList := by
  cases a <;> simp [aspectsList]

theorem passDFold_bucket_ne (es : List (String × GeneKey × Finset AnnoKey))
    (snap : Aspect → Finset GeneKey) (gi : GeneIndex) (a : Aspect) (s : AnnotationStatus)
    (hs : s ≠ AnnotationStatus.Unannotated) :
    (es.foldl (fun gi2 e => passDStep snap gi2 e.2.1) gi) a s = gi a s := by
  induction es generalizing gi with
  | nil => rfl
  | cons e rest ih =>
    simp only [List.foldl_cons]
    rw [ih]
    exact foldD_bucket_ne _ _ _ _ _ _ hs

theorem passDStep_mem_unannot (snap : Aspect → Finset GeneKey) (gi : GeneIndex) (k : GeneKey)
    (a : Aspect) (k2 : GeneKey) :
    k2 ∈ (passDStep snap gi k) a AnnotationStatus.Unannotated ↔
      k2 ∈ gi a AnnotationStatus.Unannotated ∨ (k2 = k ∧ k ∉ snap a) := by
  unfold passDStep
  rw [foldD_mem_unannot]
  simp [mem_aspectsList]

theorem passDFold_mem_unannot (es : List (String × GeneKey × Finset AnnoKey))
    (snap : Aspect → Finset GeneKey) (gi : GeneIndex) (a : Aspect) (k2 : GeneKey) :
    k2 ∈ (es.foldl (fun gi2 e => passDStep snap gi2 e.2.1) gi) a
        AnnotationStatus.Unannotated ↔
      k2 ∈ gi a AnnotationStatus.Unannotated ∨ ∃ e ∈ es, e.2.1 = k2 ∧ k2 ∉ snap a := by
  induction es generalizing gi with
  | nil => simp
  | cons e rest ih =>
    simp only [List.foldl_cons, ih, passDStep_mem_unannot, List.mem_cons]
    constructor
    · rintro ((h | ⟨rfl, hsnap⟩) | ⟨e2, he2, hk, hsnap⟩)
      · exact Or.inl h
      · exact Or.inr ⟨e, Or.inl rfl, rfl, hsnap⟩
      · exact Or.inr ⟨e2, Or.inr he2, hk, hsnap⟩
    · rintro (h | ⟨e2, (rfl | he2), hk, hsnap⟩)
      · exact Or.inl (Or.inl h)
      · exact Or.inl (Or.inr ⟨hk.symm, by rw [hk]; exact hsnap⟩)
      · exact Or.inr ⟨e2, he2, hk, hsnap⟩

theorem index_new_gene_index (genes : List Gene) (annots : List Annot) :
    (Index.new genes annots).gene_index =
      (passB genes annots).anno_index.foldl
        (fun gi2 e => passDStep
          (fun a => annotatedIn
            (passC (passB genes annots).gene_index (passB genes annots).known_other) a)
          gi2 e.2.1)
        (passC (passB genes annots).gene_index (passB genes annots).known_other) := rfl

/-- C3: in every Index built by `Index::new`, for each aspect the
KnownOther bucket and the KnownExperimental bucket are disjoint: pass C
inserts a gene into KnownOther only when the gene is absent from that
aspect's KnownExperimental set, and no later pass touches either
bucket. -/
theorem c3_known_other_disjoint (genes : List Gene) (annots : List Annot) (a : Aspect) :
    (Index.new genes annots).gene_index a AnnotationStatus.KnownOther ∩
      (Index.new genes annots).gene_index a AnnotationStatus.KnownExperimental = ∅ := by
  ext k
  simp only [Finset.mem_inter, Finset.not_mem_empty, iff_false, not_and]
  intro hko hke
  rw [index_new_gene_index] at hko hke
  rw [passDFold_bucket_ne _ _ _ _ _ (by intro hh; cases hh)] at hko hke
  rw [passC_bucket_ne _ _ _ _ (by intro hh; cases hh)] at hke
  rcases passC_other_mem _ _ _ _ hko with h | h
  · rw [show (passB genes annots).gene_index a AnnotationStatus.KnownOther =
        (∅ : Finset GeneKey) from passBFold_bucket_other _ _ _] at h
    exact Finset.not_mem_empty k h
  · exact h hke

theorem withIdx_snd_mem {l : List α} {p : Nat × α} {n : Nat} (hp : p ∈ withIdx n l) :
    p.2 ∈ l := by
  induction l generalizing n with
  | nil => cases hp
  | cons x xs ih =>
    rw [withIdx] at hp
    rcases List.mem_cons.1 hp with rfl | hp2
    · simp
    · exact List.mem_cons_of_mem x (ih hp2)

theorem passB_unannot_empty (genes : List Gene) (annots : List Annot)
    (h : ∀ x ∈ annots, x.annotation_status ≠ AnnotationStatus.Unannotated) (a : Aspect) :
    (passB genes annots).gene_index a AnnotationStatus.Unannotated = ∅ := by
  unfold passB
  rw [passBFold_bucket_unannot]
  · rfl
  · intro p hp
    exact h p.2 (withIdx_snd_mem hp)

/-- C4 counterexample: feeding `Index::new` one annotation whose status
is `Unannotated` together with an experimental one (same gene, same
aspect) puts gene key `0` into BOTH the Unannotated bucket (via pass B)
and the KnownExperimental bucket, so the Unannotated bucket is NOT
limited to genes appearing in no other status bucket. -/
theorem c4_counterexample :
    (0 : Nat) ∈ (Index.new [cGeneG]
        [cAnnotG AnnotationStatus.Unannotated,
         cAnnotG AnnotationStatus.KnownExperimental]).gene_index
        Aspect.CellularComponent AnnotationStatus.Unannotated ∧
      (0 : Nat) ∈ (Index.new [cGeneG]
        [cAnnotG AnnotationStatus.Unannotated,
         cAnnotG AnnotationStatus.KnownExperimental]).gene_index
        Aspect.CellularComponent AnnotationStatus.KnownExperimental := by
  refine ⟨?_, ?_⟩ <;> decide

/-- C4 (amended): provided no annotation handed to `Index::new` already
carries the computed-only status `Unannotated` (classifier-produced
annotations never do), the Unannotated bucket of each aspect holds
exactly the indexed genes (those with an `anno_index` entry) that appear
in none of the other status buckets of that aspect. -/
theorem c4_unannotated_exact (genes : List Gene) (annots : List Annot)
    (h : ∀ x ∈ annots, x.annotation_status ≠ AnnotationStatus.Unannotated)
    (a : Aspect) (k : GeneKey) :
    k ∈ (Index.new genes annots).gene_index a AnnotationStatus.Unannotated ↔
      (k ∈ indexedKeys (Index.new genes annots) ∧
       k ∉ (Index.new genes annots).gene_index a AnnotationStatus.KnownExperimental ∧
       k ∉ (Index.new genes annots).gene_index a AnnotationStatus.KnownOther ∧
       k ∉ (Index.new genes annots).gene_index a AnnotationStatus.Unknown) := by
  have hgi := index_new_gene_index genes annots
  have hexp : (Index.new genes annots).gene_index a AnnotationStatus.KnownExperimental =
      passC (passB genes annots).gene_index (passB genes annots).known_other a
        AnnotationStatus.KnownExperimental := by
    rw [hgi]; exact passDFold_bucket_ne _ _ _ _ _ (by intro hh; cases hh)
  have hoth : (Index.new genes annots).gene_index a AnnotationStatus.KnownOther =
      passC (passB genes annots).gene_index (passB genes annots).known_other a
        AnnotationStatus.KnownOther := by
    rw [hgi]; exact passDFold_bucket_ne _ _ _ _ _ (by intro hh; cases hh)
  have hunk : (Index.new genes annots).gene_index a AnnotationStatus.Unknown =
      passC (passB genes annots).gene_index (passB genes annots).known_other a
        AnnotationStatus.Unknown := by
    rw [hgi]; exact passDFold_bucket_ne _ _ _ _ _ (by intro hh; cases hh)
  have hun3 : passC (passB genes annots).gene_index (passB genes annots).known_other a
      AnnotationStatus.Unannotated = ∅ := by
    rw [passC_bucket_ne _ _ _ _ (by intro hh; cases hh)]
    exact passB_unannot_empty genes annots h a
  have hkeys : k ∈ indexedKeys (Index.new genes annots) ↔
      ∃ e ∈ (passB genes annots).anno_index, e.2.1 = k := by
    unfold indexedKeys
    rw [index_new_anno_index, List.mem_toFinset, List.mem_map]
  constructor
  · intro hk
    rw [hgi, passDFold_mem_unannot] at hk
    rcases hk with hk | ⟨e, he, hk, hsnap⟩
    · rw [hun3] at hk
      exact absurd hk (Finset.not_mem_empty k)
    · rw [annotatedIn, hun3] at hsnap
      simp only [Finset.mem_union, Finset.not_mem_empty, or_false, not_or] at hsnap
      exact ⟨hkeys.2 ⟨e, he, hk⟩, by rw [hexp]; exact hsnap.1.1, by rw [hoth]; exact hsnap.1.2,
        by rw [hunk]; exact hsnap.2⟩
  · rintro ⟨hk, he2, ho2, hu2⟩
    obtain ⟨e, he, hek⟩ := hkeys.1 hk
    rw [hgi, passDFold_mem_unannot]
    refine Or.inr ⟨e, he, hek, ?_⟩
    rw [annotatedIn, hun3]
    simp only [Finset.mem_union, Finset.not_mem_empty, or_false, not_or]
    exact ⟨⟨by rw [hexp] at he2; exact he2, by rw [hoth] at ho2; exact ho2⟩,
      by rw [hunk] at hu2; exact hu2⟩

/-- C4 witness: the amended characterization applied to a concrete
index (one gene, no annotations): gene key 0 is Unannotated in every
aspect. -/
theorem c4_unannotated_witness :
    (0 : Nat) ∈ (Index.new [cGeneG] []).gene_index Aspect.MolecularFunction
      AnnotationStatus.Unannotated :=
  (c4_unannotated_exact [cGeneG] [] (by intro x hx; cases hx) Aspect.MolecularFunction 0).2
    ⟨by decide, by decide, by decide, by decide⟩

/-! ### C10: Unannotated segments carry no annotations -/

theorem index_new_annotations (genes : List Gene) (annots : List Annot) :
    (Index.new genes annots).annotations = annots := rfl

theorem segMatches_unannot_false (genes : List Gene) (records : List AnnotationRecord)
    (allow : List String) (a : Aspect) (j : AnnoKey) :
    segMatches (Index.new genes (records.map (fun r => Annot.from_record r allow)))
      { aspect := a, annotation_status := AnnotationStatus.Unannotated } j = false := by
  unfold segMatches
  cases hj : Index.get_annotation
      (Index.new genes (records.map (fun r => Annot.from_record r allow))) j with
  | none => rfl
  | some anno =>
    simp only [decide_eq_false_iff_not, not_and]
    intro _
    have hmem : anno ∈ records.map (fun r => Annot.from_record r allow) := by
      have := hj
      rw [Index.get_annotation, index_new_annotations] at this
      exact List.get?_mem this
    obtain ⟨r, _, rfl⟩ := List.mem_map.1 hmem
    exact from_record_status_ne_unannot r allow

/-- C10: a Segment query with status `Unannotated` always returns an
empty `queried_annos` set when the index is built from
classifier-produced annotations: classification never assigns the
`Unannotated` status, so no annotation can pass the segment's status
filter. -/
theorem c10_segment_unannotated_empty (genes : List Gene) (records : List AnnotationRecord)
    (allow : List String) (a : Aspect) :
    (Segment.query { aspect := a, annotation_status := AnnotationStatus.Unannotated }
        (Index.new genes (records.map (fun r => Annot.from_record r allow)))).queried_annos =
      ∅ := by
  ext j
  simp only [Finset.not_mem_empty, iff_false]
  intro hj
  rw [Segment.query] at hj
  simp only [Finset.mem_biUnion] at hj
  obtain ⟨gk, _, hj⟩ := hj
  revert hj
  cases hg : (Index.new genes (records.map (fun r => Annot.from_record r allow))).get_gene
      gk with
  | none => simp
  | some gene =>
    simp only
    cases ha : annoIndexGet
        (Index.new genes (records.map (fun r => Annot.from_record r allow))).anno_index
        gene.gene_id with
    | none => simp
    | some e =>
      simp only [Finset.mem_filter]
      rintro ⟨_, hmatch⟩
      rw [segMatches_unannot_false] at hmatch
      cases hmatch

/-! ### C9: MetadataReader capture -/

theorem flatten_linesInc (l : List Char) : (linesInc l).flatten = l := by
  induction l with
  | nil => rfl
  | cons x xs ih =>
    by_cases h : x = '\n'
    · subst h
      simp [linesInc, ih]
    · simp only [linesInc, if_neg h]
      cases hl : linesInc xs with
      | nil =>
        rw [hl] at ih
        simp_all
      | cons f ls =>
        rw [hl] at ih
        simp_all

theorem scanLines_some (ls : List (List Char)) (acc m h b : List Char)
    (hscan : scanLines ls acc = some (m, h, b))
    (hblank : ∀ l ∈ ls, isBlankLine l = true → l = ['\n']) :
    m ++ h ++ b = acc ++ ls.flatten := by
  induction ls generalizing acc with
  | nil => cases hscan
  | cons l rest ih =>
    rw [scanLines] at hscan
    by_cases hb : isBlankLine l = true
    · rw [if_pos (by simp [hb])] at hscan
      have hl : l = ['\n'] := hblank l (List.mem_cons_self l rest) hb
      have hrec := ih (acc ++ ['\n']) hscan
        (fun l2 hl2 hb2 => hblank l2 (List.mem_cons_of_mem l hl2) hb2)
      rw [hrec]
      subst hl
      simp
    · rw [if_neg (by simp [hb])] at hscan
      by_cases hbang : isBangLine l = true
      · rw [if_pos (by simp [hbang])] at hscan
        have hrec := ih (acc ++ l) hscan
          (fun l2 hl2 hb2 => hblank l2 (List.mem_cons_of_mem l hl2) hb2)
        rw [hrec]
        simp
      · rw [if_neg (by simp [hbang])] at hscan
        obtain ⟨rfl, rfl, rfl⟩ :
            acc = m ∧ l = h ∧ rest.flatten = b := by
          injection hscan with hinj
          obtain ⟨h1, h2⟩ := Prod.mk.injEq .. ▸ hinj
          exact ⟨h1, congrArg Prod.fst h2, congrArg Prod.snd h2⟩
        simp

theorem scanLines_isSome (ls : List (List Char)) (acc : List Char) :
    (scanLines ls acc).isSome = true ↔
      ∃ l ∈ ls, isBlankLine l = false ∧ isBangLine l = false := by
  induction ls generalizing acc with
  | nil => simp [scanLines]
  | cons l rest ih =>
    rw [scanLines]
    by_cases hb : isBlankLine l = true
    · rw [if_pos (by simp [hb])]
      rw [ih]
      simp [hb]
    · rw [if_neg (by simp [hb])]
      by_cases hbang : isBangLine l = true
      · rw [if_pos (by simp [hbang])]
        rw [ih]
        simp [hbang]
      · rw [if_neg (by simp [hbang])]
        simp only [Option.isSome_some, true_iff]
        exact ⟨l, List.mem_cons_self l rest,
          Bool.eq_false_iff.2 hb, Bool.eq_false_iff.2 hbang⟩

/-- C9 counterexample: on the input `" \nH\nB"`, whose metadata block
is the single whitespace-only line `" \n"`, the reader captures the
metadata string `"\n"` — NOT a byte-exact copy of the block — so
re-emitting metadata then header does not reproduce the leading section
(`"\nH\n" ≠ " \nH\n"`). -/
theorem c9_counterexample :
    metadataSplit " \nH\nB".data = some ("\n".data, "H\n".data, "B".data) ∧
      "\n".data ≠ " \n".data ∧
      "\n".data ++ "H\n".data ≠ " \nH\n".data := by
  refine ⟨by decide, by decide, by decide⟩

/-- C9 (amended): `metadata()`/`header()` become available exactly when
some line is neither blank nor a `!`-line (otherwise they stay `None`);
the captured header and the `!`-lines of the metadata are byte-exact,
but each blank (whitespace-only) line is recorded as a single newline,
so metadata ++ header ++ body reproduces the input verbatim exactly
when every blank line in it is precisely `"\n"`. -/
theorem c9_metadata_reader_amended (input : List Char) :
    ((metadataSplit input).isSome = true ↔
      ∃ l ∈ linesInc input, isBlankLine l = false ∧ isBangLine l = false) ∧
    (∀ m h b, metadataSplit input = some (m, h, b) →
      (∀ l ∈ linesInc input, isBlankLine l = true → l = ['\n']) →
      m ++ h ++ b = input) := by
  constructor
  · exact scanLines_isSome (linesInc input) []
  · intro m h b hs hbl
    have hrec := scanLines_some (linesInc input) [] m h b hs hbl
    rw [flatten_linesInc] at hrec
    simpa using hrec

/-- C9 witness: the amended reconstruction applied to the concrete
input `"!a\nH\nB"`. -/
theorem c9_witness :
    "!a\n".data ++ "H\n".data ++ "B".data = "!a\nH\nB".data :=
  (c9_metadata_reader_amended "!a\nH\nB".data).2 "!a\n".data "H\n".data "B".data (by decide)
    (by decide)

/-! ### C8: Index.new structural invariants -/

theorem withIdx_get? {l : List α} {p : Nat × α} {n : Nat} (hp : p ∈ withIdx n l) :
    ∃ i, p.1 = n + i ∧ l.get? i = some p.2 := by
  induction l generalizing n with
  | nil => cases hp
  | cons x xs ih =>
    rw [withIdx] at hp
    rcases List.mem_cons.1 hp with rfl | hp2
    · exact ⟨0, rfl, rfl⟩
    · obtain ⟨i, hi, hget⟩ := ih hp2
      exact ⟨i + 1, by omega, hget⟩

theorem withIdx_zero_get? {l : List α} {p : Nat × α} (hp : p ∈ withIdx 0 l) :
    l.get? p.1 = some p.2 := by
  obtain ⟨i, hi, hget⟩ := withIdx_get? hp
  rw [hi]
  simpa using hget

theorem mem_annoIndexInsert {ai : AnnoIndex} {id : String} {v : GeneKey × Finset AnnoKey}
    {e : String × GeneKey × Finset AnnoKey} (he : e ∈ annoIndexInsert ai id v) :
    e ∈ ai ∨ e = (id, v) := by
  induction ai with
  | nil =>
    rw [annoIndexInsert] at he
    rcases List.mem_cons.1 he with rfl | h2
    · exact Or.inr rfl
    · cases h2
  | cons e0 rest ih =>
    rw [annoIndexInsert] at he
    by_cases h : e0.1 = id
    · rw [if_pos h] at he
      rcases List.mem_cons.1 he with rfl | h2
      · exact Or.inr rfl
      · exact Or.inl (List.mem_cons_of_mem e0 h2)
    · rw [if_neg h] at he
      rcases List.mem_cons.1 he with heq | h2
      · subst heq
        exact Or.inl (List.mem_cons_self _ rest)
      · rcases ih h2 with h3 | h3
        · exact Or.inl (List.mem_cons_of_mem e0 h3)
        · exact Or.inr h3

theorem annoIndexInsert_keys_sub {ai : AnnoIndex} {id x : String}
    {v : GeneKey × Finset AnnoKey} (hx : x ∈ (annoIndexInsert ai id v).map Prod.fst) :
    x = id ∨ x ∈ ai.map Prod.fst := by
  obtain ⟨e, he, rfl⟩ := List.mem_map.1 hx
  rcases mem_annoIndexInsert he with h | rfl
  · exact Or.inr (List.mem_map_of_mem Prod.fst h)
  · exact Or.inl rfl

theorem annoIndexInsert_keys_nodup {ai : AnnoIndex} {id : String}
    {v : GeneKey × Finset AnnoKey} (h : (ai.map Prod.fst).Nodup) :
    ((annoIndexInsert ai id v).map Prod.fst).Nodup := by
  induction ai with
  | nil => simp [annoIndexInsert]
  | cons e rest ih =>
    rw [List.map_cons, List.nodup_cons] at h
    rw [annoIndexInsert]
    by_cases he : e.1 = id
    · rw [if_pos he, List.map_cons, List.nodup_cons]
      exact ⟨by rw [← he]; exact h.1, h.2⟩
    · rw [if_neg he, List.map_cons, List.nodup_cons]
      refine ⟨?_, ih h.2⟩
      intro hmem
      rcases annoIndexInsert_keys_sub hmem with rfl | hmem2
      · exact he rfl
      · exact h.1 hmem2

theorem foldA_pres (P : (String × GeneKey × Finset AnnoKey) → Prop)
    (l : List (Nat × Gene)) (ai : AnnoIndex)
    (hbase : ∀ e ∈ ai, P e)
    (hstep : ∀ p ∈ l, P (p.2.gene_id, p.1, ∅)) :
    ∀ e ∈ l.foldl (fun ai2 p => annoIndexInsert ai2 p.2.gene_id (p.1, ∅)) ai, P e := by
  induction l generalizing ai with
  | nil => exact hbase
  | cons p rest ih =>
    refine ih _ ?_ (fun q hq => hstep q (List.mem_cons_of_mem p hq))
    intro e he
    rcases mem_annoIndexInsert he with h | heq
    · exact hbase e h
    · rw [heq]
      exact hstep p (List.mem_cons_self p rest)

theorem foldA_keys_nodup (l : List (Nat × Gene)) (ai : AnnoIndex)
    (h : (ai.map Prod.fst).Nodup) :
    ((l.foldl (fun ai2 p => annoIndexInsert ai2 p.2.gene_id (p.1, ∅)) ai).map
      Prod.fst).Nodup := by
  induction l generalizing ai with
  | nil => exact h
  | cons p rest ih => exact ih _ (annoIndexInsert_keys_nodup h)

theorem passA_keys_nodup (genes : List Gene) : ((passA genes).map Prod.fst).Nodup := by
  unfold passA
  exact foldA_keys_nodup _ _ (by simp)

theorem passA_sets_empty (genes : List Gene) : ∀ e ∈ passA genes, e.2.2 = ∅ := by
  unfold passA
  exact foldA_pres _ _ _ (by simp) (fun p _ => rfl)

theorem passA_entry_gene (genes : List Gene) :
    ∀ e ∈ passA genes, ∃ g, genes.get? e.2.1 = some g ∧ g.gene_id = e.1 := by
  unfold passA
  exact foldA_pres _ _ _ (by simp)
    (fun p hp => ⟨p.2, withIdx_zero_get? hp, rfl⟩)

theorem addAnno_pairs (ai : AnnoIndex) (id : String) (j : AnnoKey) :
    (annoIndexAddAnno ai id j).map (fun e => (e.1, e.2.1)) =
      ai.map (fun e => (e.1, e.2.1)) := by
  induction ai with
  | nil => rfl
  | cons e rest ih =>
    rw [annoIndexAddAnno]
    by_cases h : e.1 = id
    · rw [if_pos h, List.map_cons, List.map_cons]
    · rw [if_neg h, List.map_cons, List.map_cons, ih]

theorem passBStep_pairs (st : BuildState) (j : AnnoKey) (x : Annot) :
    (passBStep st j x).anno_index.map (fun e => (e.1, e.2.1)) =
      st.anno_index.map (fun e => (e.1, e.2.1)) := by
  cases hg : x.gene_in st.anno_index with
  | none => simp [passBStep, hg]
  | some gid =>
    cases hget : annoIndexGet st.anno_index gid with
    | none => simp [passBStep, hg, hget]
    | some v =>
      by_cases hst : x.annotation_status = AnnotationStatus.KnownOther <;>
        simp [passBStep, hg, hget, hst, addAnno_pairs]

theorem passBFold_pairs (l : List (Nat × Annot)) (st : BuildState) :
    ((l.foldl (fun st2 p => passBStep st2 p.1 p.2) st)).anno_index.map
        (fun e => (e.1, e.2.1)) =
      st.anno_index.map (fun e => (e.1, e.2.1)) := by
  induction l generalizing st with
  | nil => rfl
  | cons p rest ih =>
    simp only [List.foldl_cons]
    rw [ih, passBStep_pairs]

theorem passBStep_get_isSome (st : BuildState) (j : AnnoKey) (x : Annot) (id : String) :
    (annoIndexGet (passBStep st j x).anno_index id).isSome =
      (annoIndexGet st.anno_index id).isSome := by
  rw [← isSome_map_fst (x := annoIndexGet (passBStep st j x).anno_index id),
    ← isSome_map_fst (x := annoIndexGet st.anno_index id), passBStep_get_fst]

theorem passBStep_gene_in (st : BuildState) (j : AnnoKey) (x y : Annot) :
    y.gene_in (passBStep st j x).anno_index = y.gene_in st.anno_index :=
  gene_in_congr y _ _ (fun name => passBStep_get_isSome st j x name)

theorem mem_of_annoIndexGet {ai : AnnoIndex} {id : String} {v : GeneKey × Finset AnnoKey}
    (h : annoIndexGet ai id = some v) : (id, v) ∈ ai := by
  induction ai with
  | nil => cases h
  | cons e rest ih =>
    rw [annoIndexGet] at h
    by_cases he : e.1 = id
    · rw [if_pos he] at h
      injection h with h2
      rw [← he, ← h2]
      exact List.mem_cons_self e rest
    · rw [if_neg he] at h
      exact List.mem_cons_of_mem e (ih h)

theorem annoIndexGet_of_mem {ai : AnnoIndex} {e : String × GeneKey × Finset AnnoKey}
    (hnd : (ai.map Prod.fst).Nodup) (he : e ∈ ai) : annoIndexGet ai e.1 = some e.2 := by
  induction ai with
  | nil => cases he
  | cons e0 rest ih =>
    rw [List.map_cons, List.nodup_cons] at hnd
    rcases List.mem_cons.1 he with heq | h2
    · subst heq
      rw [annoIndexGet, if_pos rfl]
    · rw [annoIndexGet]
      by_cases he0 : e0.1 = e.1
      · exfalso
        exact hnd.1 (he0 ▸ List.mem_map_of_mem Prod.fst h2)
      · rw [if_neg he0]
        exact ih hnd.2 h2

theorem addAnno_mem_fwd {ai : AnnoIndex} {id : String} {j : AnnoKey}
    {e : String × GeneKey × Finset AnnoKey} (he : e ∈ ai) :
    ∃ e2 ∈ annoIndexAddAnno ai id j, e2.1 = e.1 ∧ e2.2.1 = e.2.1 ∧ e.2.2 ⊆ e2.2.2 := by
  induction ai with
  | nil => cases he
  | cons e0 rest ih =>
    rw [annoIndexAddAnno]
    by_cases h : e0.1 = id
    · rw [if_pos h]
      rcases List.mem_cons.1 he with heq | h2
      · subst heq
        exact ⟨(e.1, e.2.1, insert j e.2.2), List.mem_cons_self _ _, rfl, rfl,
          Finset.subset_insert j e.2.2⟩
      · exact ⟨e, List.mem_cons_of_mem _ h2, rfl, rfl, Finset.Subset.refl _⟩
    · rw [if_neg h]
      rcases List.mem_cons.1 he with heq | h2
      · subst heq
        exact ⟨e, List.mem_cons_self _ _, rfl, rfl, Finset.Subset.refl _⟩
      · obtain ⟨e2, he2, hfst, hsnd, hsub⟩ := ih h2
        exact ⟨e2, List.mem_cons_of_mem _ he2, hfst, hsnd, hsub⟩

theorem addAnno_mem_rev {ai : AnnoIndex} {id : String} {j : AnnoKey}
    {e : String × GeneKey × Finset AnnoKey} (he : e ∈ annoIndexAddAnno ai id j) :
    e ∈ ai ∨ ∃ k s, e = (id, k, insert j s) ∧ (id, k, s) ∈ ai := by
  induction ai with
  | nil => cases he
  | cons e0 rest ih =>
    rw [annoIndexAddAnno] at he
    by_cases h : e0.1 = id
    · rw [if_pos h] at he
      rcases List.mem_cons.1 he with heq | h2
      · refine Or.inr ⟨e0.2.1, e0.2.2, by rw [heq, h], ?_⟩
        rw [← h]
        exact List.mem_cons_self _ _
      · exact Or.inl (List.mem_cons_of_mem e0 h2)
    · rw [if_neg h] at he
      rcases List.mem_cons.1 he with heq | h2
      · subst heq
        exact Or.inl (List.mem_cons_self _ _)
      · rcases ih h2 with h3 | ⟨k, s, heq, hmem⟩
        · exact Or.inl (List.mem_cons_of_mem e0 h3)
        · exact Or.inr ⟨k, s, heq, List.mem_cons_of_mem e0 hmem⟩

theorem passBStep_anno_inv (annots : List Annot) (st : BuildState) (jj : Nat) (x : Annot)
    (hx : annots.get? jj = some x)
    (hbase : ∀ e ∈ st.anno_index, ∀ j ∈ e.2.2,
      ∃ y, annots.get? j = some y ∧ y.gene_in st.anno_index = some e.1) :
    ∀ e ∈ (passBStep st jj x).anno_index, ∀ j ∈ e.2.2,
      ∃ y, annots.get? j = some y ∧ y.gene_in (passBStep st jj x).anno_index = some e.1 := by
  intro e he j hj
  have hstab : ∀ y : Annot,
      y.gene_in (passBStep st jj x).anno_index = y.gene_in st.anno_index :=
    fun y => passBStep_gene_in st jj x y
  cases hg : x.gene_in st.anno_index with
  | none =>
    have hai : (passBStep st jj x).anno_index = st.anno_index := by simp [passBStep, hg]
    rw [hai] at he
    obtain ⟨y, hy1, hy2⟩ := hbase e he j hj
    exact ⟨y, hy1, by rw [hstab]; exact hy2⟩
  | some gid =>
    cases hget : annoIndexGet st.anno_index gid with
    | none =>
      have hai : (passBStep st jj x).anno_index = st.anno_index := by
        simp [passBStep, hg, hget]
      rw [hai] at he
      obtain ⟨y, hy1, hy2⟩ := hbase e he j hj
      exact ⟨y, hy1, by rw [hstab]; exact hy2⟩
    | some v =>
      have hai : (passBStep st jj x).anno_index = annoIndexAddAnno st.anno_index gid jj := by
        by_cases hst : x.annotation_status = AnnotationStatus.KnownOther <;>
          simp [passBStep, hg, hget, hst]
      rw [hai] at he
      rcases addAnno_mem_rev he with hmem | ⟨k, s, heq, hmem⟩
      · obtain ⟨y, hy1, hy2⟩ := hbase e hmem j hj
        exact ⟨y, hy1, by rw [hstab]; exact hy2⟩
      · subst heq
        rcases Finset.mem_insert.1 hj with rfl | hjs
        · exact ⟨x, hx, by rw [hstab]; exact hg⟩
        · obtain ⟨y, hy1, hy2⟩ := hbase (gid, k, s) hmem j hjs
          exact ⟨y, hy1, by rw [hstab]; exact hy2⟩

theorem passBFold_anno_inv (annots : List Annot) (l : List (Nat × Annot)) (st : BuildState)
    (hl : ∀ p ∈ l, annots.get? p.1 = some p.2)
    (hbase : ∀ e ∈ st.anno_index, ∀ j ∈ e.2.2,
      ∃ y, annots.get? j = some y ∧ y.gene_in st.anno_index = some e.1) :
    ∀ e ∈ (l.foldl (fun st2 p => passBStep st2 p.1 p.2) st).anno_index, ∀ j ∈ e.2.2,
      ∃ y, annots.get? j = some y ∧
        y.gene_in (l.foldl (fun st2 p => passBStep st2 p.1 p.2) st).anno_index = some e.1 := by
  induction l generalizing st with
  | nil => exact hbase
  | cons p rest ih =>
    simp only [List.foldl_cons]
    exact ih _ (fun q hq => hl q (List.mem_cons_of_mem p hq))
      (passBStep_anno_inv annots st p.1 p.2 (hl p (List.mem_cons_self p rest)) hbase)

theorem index_new_anno_inv (genes : List Gene) (annots : List Annot) :
    ∀ e ∈ (Index.new genes annots).anno_index, ∀ j ∈ e.2.2,
      ∃ y, annots.get? j = some y ∧
        y.gene_in (Index.new genes annots).anno_index = some e.1 := by
  rw [index_new_anno_index]
  unfold passB
  exact passBFold_anno_inv annots _ _ (fun p hp => withIdx_zero_get? hp)
    (fun e he j hj => absurd hj (by rw [passA_sets_empty genes e he]; simp))

theorem index_new_keys_nodup (genes : List Gene) (annots : List Annot) :
    ((Index.new genes annots).anno_index.map Prod.fst).Nodup := by
  rw [index_new_anno_index]
  unfold passB
  have hp := passBFold_pairs (withIdx 0 annots)
    { gene_index := emptyGeneIndex, known_other := [], anno_index := passA genes }
  have hfst := congrArg (List.map Prod.fst) hp
  rw [List.map_map, List.map_map] at hfst
  have heq : ((withIdx 0 annots).foldl (fun st2 p => passBStep st2 p.1 p.2)
      { gene_index := emptyGeneIndex, known_other := [],
        anno_index := passA genes }).anno_index.map Prod.fst =
      (passA genes).map Prod.fst := hfst
  rw [heq]
  exact passA_keys_nodup genes

theorem index_new_entry_gene (genes : List Gene) (annots : List Annot) :
    ∀ e ∈ (Index.new genes annots).anno_index,
      ∃ g, genes.get? e.2.1 = some g ∧ g.gene_id = e.1 := by
  intro e he
  have hp : (Index.new genes annots).anno_index.map (fun e2 => (e2.1, e2.2.1)) =
      (passA genes).map (fun e2 => (e2.1, e2.2.1)) := by
    rw [index_new_anno_index]
    unfold passB
    exact passBFold_pairs _ _
  have hmem : (e.1, e.2.1) ∈ (passA genes).map (fun e2 => (e2.1, e2.2.1)) := by
    rw [← hp]
    exact List.mem_map_of_mem _ he
  obtain ⟨e0, he0, heq⟩ := List.mem_map.1 hmem
  obtain ⟨h1, h2⟩ := Prod.mk.injEq .. ▸ heq
  obtain ⟨g, hg, hgid⟩ := passA_entry_gene genes e0 he0
  exact ⟨g, by rw [← h2]; exact hg, by rw [← h1]; exact hgid⟩

theorem passBStep_key_inv (st : BuildState) (jj : Nat) (x : Annot)
    (hgi : ∀ a s k, k ∈ st.gene_index a s → ∃ e ∈ st.anno_index, e.2.1 = k)
    (hko : ∀ p ∈ st.known_other, ∃ e ∈ st.anno_index, e.2.1 = p.2) :
    (∀ a s k, k ∈ (passBStep st jj x).gene_index a s →
      ∃ e ∈ (passBStep st jj x).anno_index, e.2.1 = k) ∧
    (∀ p ∈ (passBStep st jj x).known_other,
      ∃ e ∈ (passBStep st jj x).anno_index, e.2.1 = p.2) := by
  cases hg : x.gene_in st.anno_index with
  | none =>
    have hst : passBStep st jj x = st := by simp [passBStep, hg]
    rw [hst]
    exact ⟨hgi, hko⟩
  | some gid =>
    cases hget : annoIndexGet st.anno_index gid with
    | none =>
      have hst : passBStep st jj x = st := by simp [passBStep, hg, hget]
      rw [hst]
      exact ⟨hgi, hko⟩
    | some v =>
      have hai : (passBStep st jj x).anno_index = annoIndexAddAnno st.anno_index gid jj := by
        by_cases hs : x.annotation_status = AnnotationStatus.KnownOther <;>
          simp [passBStep, hg, hget, hs]
      have htrans : ∀ k, (∃ e ∈ st.anno_index, e.2.1 = k) →
          ∃ e ∈ (passBStep st jj x).anno_index, e.2.1 = k := by
        rintro k ⟨e, he, rfl⟩
        obtain ⟨e2, he2, _, hsnd, _⟩ := @addAnno_mem_fwd _ gid jj _ he
        exact ⟨e2, by rw [hai]; exact he2, hsnd⟩
      have hvkey : ∃ e ∈ (passBStep st jj x).anno_index, e.2.1 = v.1 :=
        htrans v.1 ⟨(gid, v), mem_of_annoIndexGet hget, rfl⟩
      by_cases hs : x.annotation_status = AnnotationStatus.KnownOther
      · have hgi2 : (passBStep st jj x).gene_index = st.gene_index := by
          simp [passBStep, hg, hget, hs]
        have hko2 : (passBStep st jj x).known_other =
            st.known_other ++ [(x.aspect, v.1)] := by
          simp [passBStep, hg, hget, hs]
        constructor
        · intro a s k hk
          rw [hgi2] at hk
          exact htrans k (hgi a s k hk)
        · intro p hp
          rw [hko2] at hp
          rcases List.mem_append.1 hp with hp2 | hp2
          · exact htrans p.2 (hko p hp2)
          · rw [List.mem_singleton.1 hp2]
            exact hvkey
      · have hgi2 : (passBStep st jj x).gene_index =
            giInsert st.gene_index x.aspect x.annotation_status v.1 := by
          simp [passBStep, hg, hget, hs]
        have hko2 : (passBStep st jj x).known_other = st.known_other := by
          simp [passBStep, hg, hget, hs]
        constructor
        · intro a s k hk
          rw [hgi2] at hk
          rcases (mem_giInsert _ _ _ _ _ _ _).1 hk with ⟨_, _, rfl⟩ | hk2
          · exact hvkey
          · exact htrans k (hgi a s k hk2)
        · intro p hp
          rw [hko2] at hp
          exact htrans p.2 (hko p hp)

theorem passBFold_key_inv (l : List (Nat × Annot)) (st : BuildState)
    (hgi : ∀ a s k, k ∈ st.gene_index a s → ∃ e ∈ st.anno_index, e.2.1 = k)
    (hko : ∀ p ∈ st.known_other, ∃ e ∈ st.anno_index, e.2.1 = p.2) :
    (∀ a s k, k ∈ (l.foldl (fun st2 p => passBStep st2 p.1 p.2) st).gene_index a s →
      ∃ e ∈ (l.foldl (fun st2 p => passBStep st2 p.1 p.2) st).anno_index, e.2.1 = k) ∧
    (∀ p ∈ (l.foldl (fun st2 p => passBStep st2 p.1 p.2) st).known_other,
      ∃ e ∈ (l.foldl (fun st2 p => passBStep st2 p.1 p.2) st).anno_index, e.2.1 = p.2) := by
  induction l generalizing st with
  | nil => exact ⟨hgi, hko⟩
  | cons p rest ih =>
    simp only [List.foldl_cons]
    obtain ⟨h1, h2⟩ := passBStep_key_inv st p.1 p.2 hgi hko
    exact ih _ h1 h2

theorem passC_key_inv (l : List (Aspect × GeneKey)) (gi : GeneIndex) (ai : AnnoIndex)
    (hgi : ∀ a s k, k ∈ gi a s → ∃ e ∈ ai, e.2.1 = k)
    (hl : ∀ p ∈ l, ∃ e ∈ ai, e.2.1 = p.2) :
    ∀ a s k, k ∈ passC gi l a s → ∃ e ∈ ai, e.2.1 = k := by
  induction l generalizing gi with
  | nil => exact hgi
  | cons p rest ih =>
    have hstep : passC gi (p :: rest) =
        passC (if p.2 ∈ gi p.1 AnnotationStatus.KnownExperimental then gi
          else giInsert gi p.1 AnnotationStatus.KnownOther p.2) rest := rfl
    simp only [hstep]
    apply ih _ ?_ (fun q hq => hl q (List.mem_cons_of_mem p hq))
    by_cases hmem : p.2 ∈ gi p.1 AnnotationStatus.KnownExperimental
    · rw [if_pos hmem]
      exact hgi
    · rw [if_neg hmem]
      intro a s k hk
      rcases (mem_giInsert _ _ _ _ _ _ _).1 hk with ⟨_, _, rfl⟩ | hk2
      · exact hl p (List.mem_cons_self p rest)
      · exact hgi a s k hk2

theorem index_new_bucket_keys (genes : List Gene) (annots : List Annot) :
    ∀ a s k, k ∈ (Index.new genes annots).gene_index a s →
      ∃ e ∈ (Index.new genes annots).anno_index, e.2.1 = k := by
  intro a s k hk
  rw [index_new_gene_index] at hk
  rw [index_new_anno_index]
  have hB := passBFold_key_inv (withIdx 0 annots)
    { gene_index := emptyGeneIndex, known_other := [], anno_index := passA genes }
    (fun a2 s2 k2 hk2 => absurd hk2 (Finset.not_mem_empty k2))
    (fun p hp => absurd hp (List.not_mem_nil p))
  have hC : ∀ a2 s2 k2,
      k2 ∈ passC (passB genes annots).gene_index (passB genes annots).known_other a2 s2 →
      ∃ e ∈ (passB genes annots).anno_index, e.2.1 = k2 :=
    passC_key_inv _ _ _ hB.1 hB.2
  by_cases hs : s = AnnotationStatus.Unannotated
  · subst hs
    rcases (passDFold_mem_unannot _ _ _ _ _).1 hk with hk2 | ⟨e, he, hek, _⟩
    · exact hC a _ k hk2
    · exact ⟨e, he, hek⟩
  · rw [passDFold_bucket_ne _ _ _ _ _ hs] at hk
    exact hC a s k hk

theorem segquery_genes (seg : Segment) (idx : Index) :
    (Segment.query seg idx).queried_genes = idx.gene_index seg.aspect seg.annotation_status :=
  rfl

theorem segment_query_wf (genes : List Gene) (annots : List Annot) (seg : Segment) :
    ∀ j ∈ (Segment.query seg (Index.new genes annots)).queried_annos,
      keepAnno (Index.new genes annots)
        ((Segment.query seg (Index.new genes annots)).queried_genes) j = true := by
  intro j hj
  rw [Segment.query] at hj
  simp only [Finset.mem_biUnion] at hj
  obtain ⟨gk, hgk, hj2⟩ := hj
  cases hgene : (Index.new genes annots).get_gene gk with
  | none =>
    simp only [hgene] at hj2
    exact absurd hj2 (Finset.not_mem_empty j)
  | some gene =>
    simp only [hgene] at hj2
    cases hai : annoIndexGet (Index.new genes annots).anno_index gene.gene_id with
    | none =>
      simp only [hai] at hj2
      exact absurd hj2 (Finset.not_mem_empty j)
    | some ev =>
      simp only [hai] at hj2
      obtain ⟨hjmem, _⟩ := Finset.mem_filter.1 hj2
      obtain ⟨en, hen, henk⟩ := index_new_bucket_keys genes annots seg.aspect
        seg.annotation_status gk hgk
      obtain ⟨g, hgget, hgid⟩ := index_new_entry_gene genes annots en hen
      have hgeq : g = gene := by
        rw [henk] at hgget
        have hg2 : genes.get? gk = some gene := hgene
        rw [hg2] at hgget
        injection hgget with h2
        exact h2.symm
      have henid : en.1 = gene.gene_id := by rw [← hgeq, hgid]
      have hget_en : annoIndexGet (Index.new genes annots).anno_index en.1 = some en.2 :=
        annoIndexGet_of_mem (index_new_keys_nodup genes annots) hen
      rw [henid, hai] at hget_en
      have hev : en.2 = ev := by
        injection hget_en with h
        exact h.symm
      have hevk : ev.1 = gk := by rw [← hev, henk]
      have hmem_ev : (gene.gene_id, ev) ∈ (Index.new genes annots).anno_index :=
        mem_of_annoIndexGet hai
      obtain ⟨y, hy1, hy2⟩ := index_new_anno_inv genes annots (gene.gene_id, ev) hmem_ev j hjmem
      have hy1' : Index.get_annotation (Index.new genes annots) j = some y := hy1
      unfold keepAnno
      simp only [hy1']
      simp only [Index.resolveGene, hy2, hai, Option.map_some']
      rw [hevk]
      simp only [decide_eq_true_eq]
      rw [segquery_genes]
      exact hgk

theorem keepAnno_mono (idx : Index) {G G2 : Finset GeneKey} (hsub : G ⊆ G2) (j : AnnoKey) :
    keepAnno idx G j = true → keepAnno idx G2 j = true := by
  unfold keepAnno
  cases idx.get_annotation j with
  | none => exact fun h => h
  | some anno =>
    show (match idx.resolveGene anno with
        | none => false
        | some k => decide (k ∈ G)) = true →
      (match idx.resolveGene anno with
        | none => false
        | some k => decide (k ∈ G2)) = true
    cases idx.resolveGene anno with
    | none => exact fun h => h
    | some k =>
      intro h
      simp only [decide_eq_true_eq] at h ⊢
      exact hsub h

theorem interfold_subset (l : List QueryResult) (g0 : Finset GeneKey) :
    l.foldl (fun g q => g ∩ q.queried_genes) g0 ⊆ g0 := by
  induction l generalizing g0 with
  | nil => exact fun _ h => h
  | cons q rest ih =>
    intro k hk
    simp only [List.foldl_cons] at hk
    exact (Finset.mem_inter.1 (ih (g0 ∩ q.queried_genes) hk)).1

theorem interfold_mem (l : List QueryResult) (g0 : Finset GeneKey) (k : GeneKey) :
    k ∈ l.foldl (fun g q => g ∩ q.queried_genes) g0 ↔
      k ∈ g0 ∧ ∀ q ∈ l, k ∈ q.queried_genes := by
  induction l generalizing g0 with
  | nil => simp
  | cons q rest ih =>
    simp only [List.foldl_cons, ih, Finset.mem_inter, List.mem_cons]
    constructor
    · rintro ⟨⟨h0, hq⟩, hrest⟩
      refine ⟨h0, ?_⟩
      intro q2 hq2
      rcases hq2 with rfl | hq2
      · exact hq
      · exact hrest q2 hq2
    · rintro ⟨h0, hall⟩
      exact ⟨⟨h0, hall q (Or.inl rfl)⟩, fun q2 hq2 => hall q2 (Or.inr hq2)⟩

theorem intersectQR_genes (idx : Index) (r q : QueryResult) :
    (intersectQR idx r q).queried_genes = r.queried_genes ∩ q.queried_genes := rfl

theorem intersectQR_annos (idx : Index) (r q : QueryResult) :
    (intersectQR idx r q).queried_annos =
      (r.queried_annos ∪ q.queried_annos).filter
        (fun j => keepAnno idx (r.queried_genes ∩ q.queried_genes) j = true) := rfl

theorem foldl_intersect (idx : Index) (l : List QueryResult) (r : QueryResult)
    (hwf : ∀ j ∈ r.queried_annos, keepAnno idx r.queried_genes j = true) :
    (l.foldl (fun acc q => intersectQR idx acc q) r).queried_genes =
      l.foldl (fun g q => g ∩ q.queried_genes) r.queried_genes ∧
    ∀ j, j ∈ (l.foldl (fun acc q => intersectQR idx acc q) r).queried_annos ↔
      ((j ∈ r.queried_annos ∨ ∃ q ∈ l, j ∈ q.queried_annos) ∧
        keepAnno idx (l.foldl (fun g q => g ∩ q.queried_genes) r.queried_genes) j = true) := by
  induction l generalizing r with
  | nil =>
    refine ⟨rfl, fun j => ?_⟩
    simp only [List.foldl_nil]
    constructor
    · intro hj
      exact ⟨Or.inl hj, hwf j hj⟩
    · rintro ⟨hj | ⟨q, hq, _⟩, _⟩
      · exact hj
      · exact absurd hq (List.not_mem_nil q)
  | cons q rest ih =>
    simp only [List.foldl_cons]
    have hwf2 : ∀ j ∈ (intersectQR idx r q).queried_annos,
        keepAnno idx (intersectQR idx r q).queried_genes j = true := by
      intro j hj
      rw [intersectQR_annos] at hj
      rw [intersectQR_genes]
      exact (Finset.mem_filter.1 hj).2
    obtain ⟨hg, ha⟩ := ih (intersectQR idx r q) hwf2
    refine ⟨by rw [hg]; rfl, ?_⟩
    intro j
    rw [ha j]
    rw [intersectQR_annos, intersectQR_genes]
    constructor
    · rintro ⟨hj | ⟨q2, hq2, hj⟩, hkeep⟩
      · obtain ⟨hju, _⟩ := Finset.mem_filter.1 hj
        rcases Finset.mem_union.1 hju with h | h
        · exact ⟨Or.inl h, hkeep⟩
        · exact ⟨Or.inr ⟨q, List.mem_cons_self q rest, h⟩, hkeep⟩
      · exact ⟨Or.inr ⟨q2, List.mem_cons_of_mem q hq2, hj⟩, hkeep⟩
    · rintro ⟨hj | ⟨q2, hq2, hj⟩, hkeep⟩
      · refine ⟨Or.inl (Finset.mem_filter.2 ⟨Finset.mem_union_left _ hj, ?_⟩), hkeep⟩
        exact keepAnno_mono idx (interfold_subset rest _) j hkeep
      · rcases List.mem_cons.1 hq2 with rfl | hq2
        · refine ⟨Or.inl (Finset.mem_filter.2 ⟨Finset.mem_union_right _ hj, ?_⟩), hkeep⟩
          exact keepAnno_mono idx (interfold_subset rest _) j hkeep
        · exact ⟨Or.inr ⟨q2, hq2, hj⟩, hkeep⟩

theorem execute_intersection_cons (idx : Index) (s : Segment) (rest : List Segment) :
    Query.execute (Query.Intersection (s :: rest)) idx =
      (rest.map (fun s2 => s2.query idx)).foldl (fun acc q => intersectQR idx acc q)
        (s.query idx) := rfl

/-- C8: Intersection-query semantics on any `Index::new`-built index:
the empty segment list yields the empty result; a single-element list
yields exactly that segment's result; for a non-empty list the genes
are the intersection of the segments' gene sets, and the annotations
are the union of the segments' annotation sets restricted to those
whose resolved gene lies in the intersected gene set. -/
theorem c8_intersection_semantics (genes : List Gene) (annots : List Annot) :
    (Query.execute (Query.Intersection []) (Index.new genes annots) =
      QueryResult.emptyResult) ∧
    (∀ s : Segment, Query.execute (Query.Intersection [s]) (Index.new genes annots) =
      Segment.query s (Index.new genes annots)) ∧
    (∀ segs : List Segment, segs ≠ [] →
      (∀ k,
        k ∈ (Query.execute (Query.Intersection segs) (Index.new genes annots)).queried_genes ↔
        ∀ s ∈ segs, k ∈ (Segment.query s (Index.new genes annots)).queried_genes) ∧
      (∀ j,
        j ∈ (Query.execute (Query.Intersection segs) (Index.new genes annots)).queried_annos ↔
        (∃ s ∈ segs, j ∈ (Segment.query s (Index.new genes annots)).queried_annos) ∧
          keepAnno (Index.new genes annots)
            ((Query.execute (Query.Intersection segs)
              (Index.new genes annots)).queried_genes) j = true)) := by
  refine ⟨rfl, fun s => rfl, ?_⟩
  intro segs hne
  cases segs with
  | nil => exact absurd rfl hne
  | cons s rest =>
    obtain ⟨hg, ha⟩ := foldl_intersect (Index.new genes annots)
      (rest.map (fun s2 => s2.query (Index.new genes annots)))
      (s.query (Index.new genes annots)) (segment_query_wf genes annots s)
    rw [execute_intersection_cons]
    constructor
    · intro k
      rw [hg, interfold_mem]
      simp only [List.mem_map, List.mem_cons]
      constructor
      · rintro ⟨h0, hall⟩ s2 hs2
        rcases hs2 with rfl | hs2
        · exact h0
        · exact hall _ ⟨s2, hs2, rfl⟩
      · intro hall
        refine ⟨hall s (Or.inl rfl), ?_⟩
        rintro q ⟨s2, hs2, rfl⟩
        exact hall s2 (Or.inr hs2)
    · intro j
      rw [ha j, hg]
      simp only [List.mem_map, List.mem_cons]
      constructor
      · rintro ⟨hj | ⟨q, ⟨s2, hs2, rfl⟩, hjq⟩, hkeep⟩
        · exact ⟨⟨s, Or.inl rfl, hj⟩, hkeep⟩
        · exact ⟨⟨s2, Or.inr hs2, hjq⟩, hkeep⟩
      · rintro ⟨⟨s2, hs2, hj⟩, hkeep⟩
        rcases hs2 with rfl | hs2
        · exact ⟨Or.inl hj, hkeep⟩
        · exact ⟨Or.inr ⟨s2.query (Index.new genes annots), ⟨s2, hs2, rfl⟩, hj⟩, hkeep⟩

/-- C8 witness: the intersection semantics instantiated on a concrete
index and a two-segment list. -/
theorem c8_intersection_witness :
    (0 : Nat) ∈ (Query.execute (Query.Intersection
      [{ aspect := Aspect.CellularComponent,
         annotation_status := AnnotationStatus.KnownExperimental },
       { aspect := Aspect.CellularComponent,
         annotation_status := AnnotationStatus.KnownExperimental }])
      (Index.new [cGeneG] [cAnnotG AnnotationStatus.KnownExperimental])).queried_genes :=
  (((c8_intersection_semantics [cGeneG] [cAnnotG AnnotationStatus.KnownExperimental]).2.2
    [{ aspect := Aspect.CellularComponent,
       annotation_status := AnnotationStatus.KnownExperimental },
     { aspect := Aspect.CellularComponent,
       annotation_status := AnnotationStatus.KnownExperimental }]
    (by intro h; cases h)).1 0).2 (by decide)

/-! ### C1: parse / serialize round trip -/

theorem splitOnChar_ne_nil (c : Char) (l : List Char) : splitOnChar c l ≠ [] := by
  cases l with
  | nil => simp [splitOnChar]
  | cons x xs =>
    rw [splitOnChar]
    cases splitOnChar c xs with
    | nil => simp
    | cons f rest =>
      by_cases h : x = c <;> simp [h]

theorem intercalateChar_splitOnChar (c : Char) (l : List Char) :
    intercalateChar c (splitOnChar c l) = l := by
  induction l with
  | nil => rfl
  | cons x xs ih =>
    rw [splitOnChar]
    cases hs : splitOnChar c xs with
    | nil => exact absurd hs (splitOnChar_ne_nil c xs)
    | cons f rest =>
      rw [hs] at ih
      show intercalateChar c (if x = c then [] :: f :: rest else (x :: f) :: rest) = x :: xs
      by_cases h : x = c
      · rw [if_pos h, h]
        show c :: intercalateChar c (f :: rest) = c :: xs
        rw [ih]
      · rw [if_neg h]
        cases rest with
        | nil =>
          show x :: f = x :: xs
          rw [show intercalateChar c [f] = f from rfl] at ih
          rw [ih]
        | cons g rest2 =>
          show (x :: f) ++ c :: intercalateChar c (g :: rest2) = x :: xs
          rw [show intercalateChar c (f :: g :: rest2) =
            f ++ c :: intercalateChar c (g :: rest2) from rfl] at ih
          simp only [List.cons_append, List.cons.injEq, true_and]
          exact ih

theorem Aspect.fromStr_str {s : String} {a : Aspect} (h : Aspect.fromStr s = some a) :
    Aspect.str a = s := by
  unfold Aspect.fromStr at h
  split_ifs at h with h1 h2 h3
  · subst h1
    injection h with h4
    subst h4
    rfl
  · subst h2
    injection h with h4
    subst h4
    rfl
  · subst h3
    injection h with h4
    subst h4
    rfl

theorem stripNl_getLast {l : List Char} (h : l.getLast? = some '\n') :
    stripNl l = l.dropLast := by
  unfold stripNl
  rw [if_pos h]

theorem dropLast_append_nl {l : List Char} (h : l.getLast? = some '\n') :
    l.dropLast ++ ['\n'] = l := by
  have hne : l ≠ [] := by
    intro heq
    rw [heq] at h
    cases h
  have hlast : l.getLast hne = '\n' := by
    have h2 := List.getLast?_eq_getLast l hne
    rw [h2] at h
    exact Option.some.inj h
  rw [← hlast]
  exact List.dropLast_append_getLast hne

theorem rowOk_stripNl_ne {l : List Char} (h : rowOk l = true) : stripNl l ≠ [] := by
  intro hnil
  unfold rowOk at h
  rw [hnil] at h
  simp [splitOnChar] at h

theorem parse_row_roundtrip {l : List Char} (h : rowOk l = true) :
    ∃ r, parseAnnotationRow l = some r ∧ serializeAnnotationRow r = l := by
  unfold rowOk at h
  split at h
  case _ f0 f1 f2 f3 f4 f5 f6 f7 f8 f9 f10 f11 f12 f13 f14 f15 f16 heq =>
    rw [Bool.and_eq_true, decide_eq_true_eq] at h
    obtain ⟨hasp, hlast⟩ := h
    obtain ⟨asp, hasp2⟩ := Option.isSome_iff_exists.1 hasp
    refine ⟨mkAnnoRecord f0 f1 f2 f3 f4 f5 f6 f7 asp f9 f10 f11 f12 f13 f14 f15 f16, ?_, ?_⟩
    · unfold parseAnnotationRow
      rw [heq]
      simp only [hasp2]
      rfl
    · unfold serializeAnnotationRow mkAnnoRecord
      simp only
      rw [Aspect.fromStr_str hasp2]
      rw [show (String.mk f8).data = f8 from rfl]
      rw [show [f0, f1, f2, f3, f4, f5, f6, f7, f8, f9, f10, f11, f12, f13, f14, f15, f16] =
        splitOnChar '\t' (stripNl l) from heq.symm]
      rw [intercalateChar_splitOnChar, stripNl_getLast hlast, dropLast_append_nl hlast]
  case _ =>
    exact absurd h (by decide)

theorem rows_parse_serialize (rows : List (List Char)) (h : ∀ l ∈ rows, rowOk l = true) :
    ∃ rs, rows.mapM parseAnnotationRow = some rs ∧ rs.map serializeAnnotationRow = rows ∧
      ∀ r ∈ rs, ∃ l ∈ rows, parseAnnotationRow l = some r := by
  induction rows with
  | nil => exact ⟨[], rfl, rfl, by simp⟩
  | cons l rest ih =>
    obtain ⟨r, hr, hser⟩ := parse_row_roundtrip (h l (List.mem_cons_self l rest))
    obtain ⟨rs, h1, h2, h3⟩ := ih (fun l2 hl2 => h l2 (List.mem_cons_of_mem l hl2))
    refine ⟨r :: rs, ?_, ?_, ?_⟩
    · rw [List.mapM_cons, hr, h1]
      rfl
    · rw [List.map_cons, hser, h2]
    · intro r2 hr2
      rcases List.mem_cons.1 hr2 with rfl | hr2
      · exact ⟨l, List.mem_cons_self l rest, hr⟩
      · obtain ⟨l2, hl2, hpl2⟩ := h3 r2 hr2
        exact ⟨l2, List.mem_cons_of_mem l hl2, hpl2⟩

theorem mapM_map_option (g : α → β) (f : β → Option γ) (l : List α) :
    (l.map g).mapM f = l.mapM (fun a => f (g a)) := by
  induction l with
  | nil => rfl
  | cons a rest ih => rw [List.map_cons, List.mapM_cons, List.mapM_cons, ih]

theorem mapM_get_range (l : List α) :
    (List.range l.length).mapM (fun j => l.get? j) = some l := by
  induction l with
  | nil => rfl
  | cons x xs ih =>
    rw [List.length_cons, List.range_succ_eq_map, List.mapM_cons]
    have hmm : (List.map Nat.succ (List.range xs.length)).mapM
        (fun j => (x :: xs).get? j) = some xs := by
      rw [mapM_map_option]
      exact ih
    rw [show ((x :: xs).get? 0) = some x from rfl, hmm]
    rfl

theorem find?_some_of_isSome {p : α → Bool} {l : List α} {a : α}
    (h : l.find? p = some a) : p a = true := List.find?_some h

theorem addAnno_hit {ai : AnnoIndex} {gid : String} {v : GeneKey × Finset AnnoKey}
    {jj : AnnoKey} (hget : annoIndexGet ai gid = some v) :
    (gid, v.1, insert jj v.2) ∈ annoIndexAddAnno ai gid jj := by
  induction ai with
  | nil => cases hget
  | cons e rest ih =>
    rw [annoIndexGet] at hget
    rw [annoIndexAddAnno]
    by_cases h : e.1 = gid
    · rw [if_pos h] at hget
      rw [if_pos h]
      injection hget with h2
      rw [← h2, ← h]
      exact List.mem_cons_self _ _
    · rw [if_neg h] at hget
      rw [if_neg h]
      exact List.mem_cons_of_mem e (ih hget)

theorem addAnno_set_mem {ai : AnnoIndex} {gid : String} {v : GeneKey × Finset AnnoKey}
    {jj : AnnoKey} (hget : annoIndexGet ai gid = some v) (j : AnnoKey) :
    (∃ e ∈ annoIndexAddAnno ai gid jj, j ∈ e.2.2) ↔
      (∃ e ∈ ai, j ∈ e.2.2) ∨ j = jj := by
  constructor
  · rintro ⟨e, he, hj⟩
    rcases addAnno_mem_rev he with hmem | ⟨k, s, heq, hmem⟩
    · exact Or.inl ⟨e, hmem, hj⟩
    · rw [heq] at hj
      rcases Finset.mem_insert.1 hj with rfl | hjs
      · exact Or.inr rfl
      · exact Or.inl ⟨(gid, k, s), hmem, hjs⟩
  · rintro (⟨e, he, hj⟩ | rfl)
    · obtain ⟨e2, he2, _, _, hsub⟩ := @addAnno_mem_fwd _ gid jj _ he
      exact ⟨e2, he2, hsub hj⟩
    · exact ⟨(gid, v.1, insert j v.2), addAnno_hit hget, Finset.mem_insert_self j v.2⟩

theorem passBStep_set_mem (st : BuildState) (jj : Nat) (x : Annot) (j : AnnoKey) :
    (∃ e ∈ (passBStep st jj x).anno_index, j ∈ e.2.2) ↔
      (∃ e ∈ st.anno_index, j ∈ e.2.2) ∨
        (j = jj ∧ (x.gene_in st.anno_index).isSome = true) := by
  cases hg : x.gene_in st.anno_index with
  | none =>
    have hai : (passBStep st jj x).anno_index = st.anno_index := by simp [passBStep, hg]
    rw [hai]
    simp
  | some gid =>
    cases hget : annoIndexGet st.anno_index gid with
    | none =>
      exfalso
      have hp := find?_some_of_isSome hg
      rw [hget] at hp
      cases hp
    | some v =>
      have hai : (passBStep st jj x).anno_index = annoIndexAddAnno st.anno_index gid jj := by
        by_cases hs : x.annotation_status = AnnotationStatus.KnownOther <;>
          simp [passBStep, hg, hget, hs]
      rw [hai, addAnno_set_mem hget j]
      simp

theorem passBFold_set_mem (l : List (Nat × Annot)) (st : BuildState) (j : AnnoKey) :
    (∃ e ∈ (l.foldl (fun st2 p => passBStep st2 p.1 p.2) st).anno_index, j ∈ e.2.2) ↔
      (∃ e ∈ st.anno_index, j ∈ e.2.2) ∨
        ∃ p ∈ l, p.1 = j ∧ ((Prod.snd p).gene_in st.anno_index).isSome = true := by
  induction l generalizing st with
  | nil => simp
  | cons p rest ih =>
    simp only [List.foldl_cons]
    rw [ih, passBStep_set_mem]
    simp only [passBStep_gene_in, List.mem_cons]
    constructor
    · rintro ((h | ⟨rfl, hc⟩) | ⟨q, hq, hjq, hcq⟩)
      · exact Or.inl h
      · exact Or.inr ⟨p, Or.inl rfl, rfl, hc⟩
      · exact Or.inr ⟨q, Or.inr hq, hjq, hcq⟩
    · rintro (h | ⟨q, (rfl | hq), hjq, hcq⟩)
      · exact Or.inl (Or.inl h)
      · exact Or.inl (Or.inr ⟨hjq.symm, hcq⟩)
      · exact Or.inr ⟨q, hq, hjq, hcq⟩

theorem withIdx_fst_iff (l : List α) (n j : Nat) :
    (∃ x, (j, x) ∈ withIdx n l) ↔ n ≤ j ∧ j < n + l.length := by
  induction l generalizing n with
  | nil => simp [withIdx]
  | cons a rest ih =>
    rw [withIdx]
    simp only [List.mem_cons, List.length_cons]
    constructor
    · rintro ⟨x, hx | hx⟩
      · obtain ⟨h1, _⟩ := Prod.mk.injEq .. ▸ hx
        omega
      · obtain ⟨h1, h2⟩ := (ih (n + 1)).1 ⟨x, hx⟩
        omega
    · rintro ⟨h1, h2⟩
      by_cases hj : j = n
      · subst hj
        exact ⟨a, Or.inl rfl⟩
      · obtain ⟨x, hx⟩ := (ih (n + 1)).2 ⟨by omega, by omega⟩
        exact ⟨x, Or.inr hx⟩

theorem sup_id_range (n : Nat) : (Finset.range n).sup id = n - 1 := by
  induction n with
  | zero => rfl
  | succ m ih =>
    rw [Finset.range_succ, Finset.sup_insert, ih]
    show max m (m - 1) = m + 1 - 1
    rw [Nat.max_eq_left (by omega : m - 1 ≤ m)]
    omega

theorem finsetSortAsc_range (n : Nat) : finsetSortAsc (Finset.range n) = List.range n := by
  cases n with
  | zero => rfl
  | succ m =>
    unfold finsetSortAsc
    rw [sup_id_range]
    show (List.range (m + 1 - 1 + 1)).filter _ = _
    rw [show m + 1 - 1 + 1 = m + 1 from rfl]
    rw [List.filter_eq_self.2]
    intro a ha
    simp only [decide_eq_true_eq, Finset.mem_range]
    exact List.mem_range.1 ha

theorem from_record_record (r : AnnotationRecord) (ev : List String) :
    (Annot.from_record r ev).record = r := rfl

theorem queryAll_annos_range (genes : List Gene) (annots : List Annot)
    (hres : ∀ x ∈ annots, (x.gene_in (passA genes)).isSome = true) :
    (queryAll (Index.new genes annots)).queried_annos = Finset.range annots.length := by
  ext j
  rw [mem_queryAll_annos, Finset.mem_range, index_new_anno_index]
  unfold passB
  rw [passBFold_set_mem]
  constructor
  · rintro (⟨e, he, hj⟩ | ⟨p, hp, hpj, _⟩)
    · exact absurd hj (by rw [passA_sets_empty genes e he]; simp)
    · obtain ⟨h1, h2⟩ := (withIdx_fst_iff annots 0 p.1).1 ⟨p.2, by
        rw [show ((p.1, p.2) : Nat × Annot) = p from rfl]; exact hp⟩
      omega
  · intro hj
    obtain ⟨x, hx⟩ := (withIdx_fst_iff annots 0 j).2 ⟨Nat.zero_le j, by omega⟩
    refine Or.inr ⟨(j, x), hx, rfl, hres x (withIdx_snd_mem hx)⟩

/-- C1 counterexample: a GAF input whose single body row parses
successfully but names only the unknown gene `X`: the row is dropped by
gene resolution, `Query::All` omits it, and the export is missing the
row, so the pipeline does not reproduce the input bytes. -/
theorem c1_counterexample :
    (AnnotationRecord.parse_from
        "a\tb\tc\t\te\tf\tEXP\th\tC\tX\tX\tp\tt\td\tx\ty\tz\n".data).isSome = true ∧
      pipelineAll [cGeneG] c1BadInput ≠ some c1BadInput := by
  refine ⟨by decide, by decide⟩

/-- C1 (amended): the pipeline `parse → Query::All → export` reproduces
the input bytes provided (i) a header line is found, (ii) every blank
metadata line is exactly a newline, (iii) every body row is
newline-terminated with exactly 17 tab-separated fields and a decodable
aspect, and (iv) every parsed record resolves to a gene of the gene
list; `All` export emits records in index insertion order. -/
theorem c1_roundtrip_amended (genes : List Gene) (input m h body : List Char)
    (H1 : metadataSplit input = some (m, h, body))
    (H2 : ∀ l ∈ linesInc input, isBlankLine l = true → l = ['\n'])
    (H3 : ∀ l ∈ linesInc body, rowOk l = true)
    (H4 : ∀ l ∈ linesInc body, rowResolves genes l = true) :
    pipelineAll genes input = some input := by
  have hrows : bodyRows body = linesInc body := by
    unfold bodyRows
    rw [List.filter_eq_self]
    intro l hl
    simp only [decide_eq_true_eq]
    exact rowOk_stripNl_ne (H3 l hl)
  obtain ⟨rs, hparse, hser, hmem⟩ := rows_parse_serialize (linesInc body) H3
  have hparse2 : AnnotationRecord.parse_from body = some rs := by
    unfold AnnotationRecord.parse_from
    rw [hrows]
    exact hparse
  have hres : ∀ x ∈ rs.map (fun r => Annot.from_record r experimentalEvidence),
      (x.gene_in (passA genes)).isSome = true := by
    intro x hx
    obtain ⟨r, hr, rfl⟩ := List.mem_map.1 hx
    obtain ⟨l, hl, hpl⟩ := hmem r hr
    have h4 := H4 l hl
    unfold rowResolves at h4
    rw [hpl] at h4
    exact h4
  have hannos := queryAll_annos_range genes
    (rs.map (fun r => Annot.from_record r experimentalEvidence)) hres
  rw [List.length_map] at hannos
  have hgets : (List.range rs.length).mapM
      (fun j => Index.get_annotation (Index.new genes
        (rs.map (fun r => Annot.from_record r experimentalEvidence))) j) =
      some (rs.map (fun r => Annot.from_record r experimentalEvidence)) := by
    have hmg := mapM_get_range (rs.map (fun r => Annot.from_record r experimentalEvidence))
    rw [List.length_map] at hmg
    exact hmg
  unfold pipelineAll
  simp only [H1, hparse2]
  rw [hannos, finsetSortAsc_range]
  simp only [hgets]
  have hrecs : (rs.map (fun r => Annot.from_record r experimentalEvidence)).map
      (fun a => a.record) = rs := by
    rw [List.map_map]
    have : ((fun a : Annot => a.record) ∘ fun r => Annot.from_record r experimentalEvidence) =
        fun r => r := by
      funext r
      rfl
    rw [this, List.map_id']
  rw [hrecs]
  unfold GafExporter_write_all
  rw [hser, flatten_linesInc]
  have hrec := scanLines_some (linesInc input) [] m h body H1 H2
  rw [flatten_linesInc] at hrec
  simp only [List.nil_append] at hrec
  rw [hrec]

/-- C1 witness: the amended round trip applied to a concrete input whose
one row resolves to gene `G`. -/
theorem c1_roundtrip_witness :
    pipelineAll [cGeneG] c1GoodInput = some c1GoodInput :=
  c1_roundtrip_amended [cGeneG] c1GoodInput "!m\n".data "h\n".data c2GoodRow (by decide)
    (by decide) (by decide) (by decide)
